import Mathlib

/-!
Shallow embedding of the core simulation of the `rustetris` falling-block
puzzle game, together with proofs checking the natural-language specification
against the code.

Conventions used throughout:
* Rust `i8` coordinates are embedded as `Int`.  All offsets appearing in the
  game are at most 4 cells, and the field is 10×20, so no `i8` wraparound can
  ever map an out-of-bounds coordinate back into the field: for every anchor
  in the `i8` range the `Int` semantics agrees with the `i8` semantics.
* Rust `HashSet` values are embedded as `Finset`, `Vec`/slices as `List`.
* Fallible accesses (`Option`) are kept as `Option`.
-/

set_option maxRecDepth 100000

namespace Rustetris

/-- Grid cell (src/game/cell.rs `Cell`). -/
inductive Cell
  | Empty
  | Normal
  | Bomb
  | BigBombUpperLeft
  | BigBombUpperRight
  | BigBombLowerLeft
  | BigBombLowerRight
deriving DecidableEq, Repr, BEq

/-- Cell emptiness test (src/game/cell.rs `Cell::is_empty`). -/
def Cell.is_empty : Cell → Bool
  | .Empty => true
  | _ => false

/-- Two-dimensional grid position; the source stores a pair of `i8` shifts
(src/geometry/position.rs `Pos`, with x growing rightward and y growing
downward). -/
structure Pos where
  x : Int
  y : Int
deriving DecidableEq, Repr

/-- Translation of a position: `p + right(dx) + below(dy)` in the source
(src/geometry/position.rs `Add` impls together with `right`/`left`/`below`/
`above`, which are mere sign conventions on the shift). -/
def Pos.mv (p : Pos) (dx dy : Int) : Pos := ⟨p.x + dx, p.y + dy⟩

/-- Field width in cells (src/game/field.rs `WIDTH`). -/
abbrev WIDTH : Nat := 10

/-- Field height in cells (src/game/field.rs `HEIGHT`). -/
abbrev HEIGHT : Nat := 20

/-- The playing field: a fixed 10×20 grid of cells
(src/game/field.rs `Field`), stored row-major (y first) like the source. -/
structure Field where
  cells : Fin HEIGHT → Fin WIDTH → Cell

instance : DecidableEq Field := fun a b =>
  decidable_of_iff (a.cells = b.cells) (by cases a; cases b; simp)

/-- The all-empty field (src/game/field.rs `Field::empty`). -/
def Field.empty : Field := ⟨fun _ _ => Cell.Empty⟩

/-- Bounds-checked cell read (src/game/field.rs `Field::get`): the source
converts each coordinate with `as_positive_index` (`None` on negatives) and
then indexes the row/column arrays (`None` out of range). -/
def Field.get (f : Field) (p : Pos) : Option Cell :=
  if h : 0 ≤ p.x ∧ p.x < (WIDTH : Int) ∧ 0 ≤ p.y ∧ p.y < (HEIGHT : Int) then
    some (f.cells ⟨p.y.toNat, by omega⟩ ⟨p.x.toNat, by omega⟩)
  else none

/-- Bounds-checked cell write, i.e. `*field.get_mut(p).unwrap() = c` guarded by
`if let Some(..)`; writing out of bounds leaves the field unchanged, matching
the `if let Some(c) = field.get_mut(pos)` pattern of the callers. -/
def Field.set (f : Field) (p : Pos) (c : Cell) : Field :=
  if h : 0 ≤ p.x ∧ p.x < (WIDTH : Int) ∧ 0 ≤ p.y ∧ p.y < (HEIGHT : Int) then
    ⟨fun y x =>
      if y = (⟨p.y.toNat, by omega⟩ : Fin HEIGHT) ∧
          x = (⟨p.x.toNat, by omega⟩ : Fin WIDTH) then c
      else f.cells y x⟩
  else f

/-- Block-template tag marking a cell of the 5×5 shape table as occupied
(carrying a label) or empty (src/game/block_template.rs `CellTag`). -/
inductive CellTag
  | Occupied (label : Nat)
  | Empty
deriving DecidableEq, Repr

/-- Orientation of a block (src/game/block_template.rs `Direction`). -/
inductive Direction
  | Left
  | Below
  | Right
  | Above
deriving DecidableEq, Repr, Fintype

/-- Clockwise orientation step (src/game/block_template.rs
`Direction::rotate_clockwise`). -/
def Direction.rotate_clockwise : Direction → Direction
  | .Left => .Above
  | .Above => .Right
  | .Right => .Below
  | .Below => .Left

/-- Counter-clockwise orientation step (src/game/block_template.rs
`Direction::rotate_unticlockwise`). -/
def Direction.rotate_unticlockwise : Direction → Direction
  | .Left => .Below
  | .Below => .Right
  | .Right => .Above
  | .Above => .Left

/-- Bomb-cell assignment of a block (src/game/block_template.rs `BombTag`). -/
inductive BombTag
  | None
  | Single (label : Nat)
  | All
deriving DecidableEq, Repr

/-- Side length of the square cell table of every block shape
(src/game/block_template.rs `BLOCK_TABLE_SIZE`). -/
abbrev BLOCK_TABLE_SIZE : Nat := 5

/-- A 5×5 table (src/game/block_template.rs `Table`), indexed y first to match
the source's row-major nesting. -/
abbrev Table (α : Type) : Type := Fin BLOCK_TABLE_SIZE → Fin BLOCK_TABLE_SIZE → α

/-- Shape data for one block: one 5×5 tag table per orientation
(src/game/block_template.rs `CellTagTableCollection`). -/
abbrev CellTagTableCollection : Type := Direction → Table CellTag

/-- Cell table generated from a shape table, an orientation and a bomb
assignment (src/game/block_template.rs `Block::generate_cells`). -/
def generate_cells (tables : CellTagTableCollection) (direction : Direction)
    (bomb_tag : BombTag) : Table Cell :=
  fun y x =>
    match tables direction y x with
    | CellTag.Occupied i =>
      match bomb_tag with
      | BombTag.All => Cell.Bomb
      | BombTag.None => Cell.Normal
      | BombTag.Single j => if i = j then Cell.Bomb else Cell.Normal
    | CellTag.Empty => Cell.Empty

/-- A block: its current cell table plus the data needed to rotate it
(src/game/block_template.rs `Block`). -/
structure Block where
  cells : Table Cell
  tables : CellTagTableCollection
  direction : Direction
  bomb_tag : BombTag

instance : DecidableEq Block := fun a b =>
  decidable_of_iff
    (a.cells = b.cells ∧ a.tables = b.tables ∧ a.direction = b.direction ∧
      a.bomb_tag = b.bomb_tag)
    (by cases a; cases b; simp)

/-- Block constructor (src/game/block_template.rs `Block::new`): the cell
table is always derived from the shape tables, the orientation and the bomb
tag. -/
def Block.new (tables : CellTagTableCollection) (direction : Direction)
    (bomb_tag : BombTag) : Block :=
  ⟨generate_cells tables direction bomb_tag, tables, direction, bomb_tag⟩

/-- Clockwise block rotation (src/game/block_template.rs
`Block::rotate_clockwise`). -/
def Block.rotate_clockwise (b : Block) : Block :=
  Block.new b.tables b.direction.rotate_clockwise b.bomb_tag

/-- Counter-clockwise block rotation (src/game/block_template.rs
`Block::rotate_unticlockwise`). -/
def Block.rotate_unticlockwise (b : Block) : Block :=
  Block.new b.tables b.direction.rotate_unticlockwise b.bomb_tag

/-- Occupied cells of a block with their relative positions, row by row from
the top, left to right (src/game/block_template.rs
`Block::iter_pos_and_occupied_cell`). -/
def Block.iter_pos_and_occupied_cell (b : Block) : List (Pos × Cell) :=
  (List.finRange BLOCK_TABLE_SIZE).flatMap fun y =>
    ((List.finRange BLOCK_TABLE_SIZE).map fun x =>
      ((⟨(x.val : Int), (y.val : Int)⟩ : Pos), b.cells y x)).filter
      fun pc => decide (pc.2 ≠ Cell.Empty)

/-- Modelled from the spec: `Block::cell_table_size` is called by the
placement search but its definition is missing from the source snapshot.
Per the spec a block is a bounded 5×5 grid of cells, so the cell table size
is the constant `BLOCK_TABLE_SIZE`. -/
def Block.cell_table_size (_b : Block) : Nat := BLOCK_TABLE_SIZE

/-- Arrangeability test (src/game/field_under_agent_control.rs
`is_arrangeable`, identical in src/game/agent_field.rs): every occupied cell
of the block, translated by the anchor, must resolve to an in-bounds field
cell that is empty. -/
def is_arrangeable (field : Field) (block : Block) (block_left_top : Pos) : Bool :=
  (block.iter_pos_and_occupied_cell.map fun pc =>
    pc.1.mv block_left_top.x block_left_top.y).all
    fun pos => ((field.get pos).map Cell.is_empty).getD false

/-- One state step of the `Shake` iterator (src/data_type/shake.rs
`Shake::next`: from current value `c` the successor state is `1` if `c = 0`,
`-c` if `c > 0` and `-c + 1` if `c < 0`; the iterator yields the pre-step
state). -/
def Shake.next (current : Int) : Int :=
  if current = 0 then 1
  else if 0 < current then -current
  else -current + 1

/-- The first `n` values yielded by a `Shake` iterator whose state is
`current` (so `shakeTake n 0` is `Shake::new().take(n)`:
`[0, 1, -1, 2, -2, …]`). -/
def shakeTake : Nat → Int → List Int
  | 0, _ => []
  | n + 1, current => current :: shakeTake n (Shake.next current)

/-- The list of integers `lo, lo+1, …, hi-1` (a Rust `lo..hi` range). -/
def intRange (lo hi : Int) : List Int :=
  (List.range (hi - lo).toNat).map fun i => lo + (i : Int)

/-- Spawn-anchor candidates of the appearance search, in the exact order the
source scans them (src/game/field_under_agent_control.rs
`find_block_appearance_pos`): rows `-shift_max..shift_max` top to bottom, and
within a row the first three shake offsets translated to the field's center
column. -/
def find_candidates (block : Block) : List Pos :=
  let shift_max : Int := (block.cell_table_size : Int) / 2
  (intRange (-shift_max) shift_max).flatMap fun y =>
    ((shakeTake 3 0).map fun x =>
      x + (WIDTH : Int) / 2 - (block.cell_table_size : Int) / 2).map
      fun x => (⟨x, y⟩ : Pos)

/-- Appearance-position search (src/game/field_under_agent_control.rs
`find_block_appearance_pos`): the nested loops with early return are the
first-match search over the candidate list. -/
def find_block_appearance_pos (field : Field) (block : Block) : Option Pos :=
  (find_candidates block).find? fun pos => is_arrangeable field block pos

/-- A block under the agent's control: the block plus the field coordinate of
the top-left corner of its cell table (src/game/field_under_agent_control.rs
`ControlledBlock`). -/
structure ControlledBlock where
  block : Block
  left_top : Pos

/-- Occupied cells of a controlled block at their absolute field positions
(src/game/field_under_agent_control.rs
`ControlledBlock::iter_pos_and_occupied_cell`). -/
def ControlledBlock.iter_pos_and_occupied_cell (cb : ControlledBlock) :
    List (Pos × Cell) :=
  cb.block.iter_pos_and_occupied_cell.map fun pc =>
    (pc.1.mv cb.left_top.x cb.left_top.y, pc.2)

/-- Committing a block to the field (src/game/field_under_agent_control.rs
`place_block`): each occupied cell is written at its mapped position;
out-of-bounds cells are dropped silently (the source's
`if let Some(c) = field.get_mut(pos)`). -/
def place_block (controlled_block : ControlledBlock) (field : Field) : Field :=
  controlled_block.iter_pos_and_occupied_cell.foldl
    (fun f pc => f.set pc.1 pc.2) field

/-- Number of blocks in the next-block queue (src/game/block_queue.rs
`NEXT_BLOCK_NUM`). -/
abbrev NEXT_BLOCK_NUM : Nat := 2

/-- The next-block ring buffer (src/game/block_queue.rs `NextBlockQueue`). -/
structure NextBlockQueue where
  blocks : Fin NEXT_BLOCK_NUM → Block

/-- Next blocks plus the hold slot (src/game/block_queue.rs `BlockQueue`). -/
structure BlockQueue where
  next_blocks : NextBlockQueue
  hold_block : Block

/-- Modelled from the spec: the `GameCommand` enum lives in a user-input
module missing from the source snapshot; its variants are fixed by the
`apply_command` match arms and by the spec's command list. -/
inductive GameCommand
  | Right
  | Left
  | Down
  | Drop
  | RotateClockwise
  | RotateUnticlockwise
  | Hold
deriving DecidableEq, Repr

/-- The field, the controlled block and the block queue during the player's
turn (src/game/field_under_agent_control.rs `FieldUnderAgentControl`). -/
structure FieldUnderAgentControl where
  field : Field
  controlled_block : ControlledBlock
  block_queue : BlockQueue

/-- Result of applying one game command
(src/game/field_under_agent_control.rs `GameCommandResult`). -/
inductive GameCommandResult
  | WaitNextCommand (next : FieldUnderAgentControl)
  | ProceedAnimation (field : Field) (queue : BlockQueue)

/-- The `Right | Left | Down` arm of `apply_command`
(src/game/field_under_agent_control.rs): try the one-cell shift; on success
keep waiting with the new anchor; on failure a `Down` commits the block and
proceeds, any other command is a no-op. -/
def apply_shift (s : FieldUnderAgentControl) (dx dy : Int) (is_down : Bool) :
    GameCommandResult :=
  let next_pos := s.controlled_block.left_top.mv dx dy
  if is_arrangeable s.field s.controlled_block.block next_pos then
    GameCommandResult.WaitNextCommand
      ⟨s.field, ⟨s.controlled_block.block, next_pos⟩, s.block_queue⟩
  else if is_down then
    GameCommandResult.ProceedAnimation
      (place_block s.controlled_block s.field) s.block_queue
  else
    GameCommandResult.WaitNextCommand s

/-- The `Drop` arm's fall loop: starting from an accumulated shift `acc`, keep
falling while one more cell down is still arrangeable.  The source's `loop`
has no fuel; the fuel used here is provably never exhausted whenever the
block has at least one occupied cell, which is the only situation in which
the source loop terminates at all. -/
def drop_shift_loop (field : Field) (block : Block) (left_top : Pos) :
    Nat → Nat → Nat
  | 0, acc => acc
  | fuel + 1, acc =>
    if is_arrangeable field block (left_top.mv 0 ((acc : Int) + 1)) then
      drop_shift_loop field block left_top fuel (acc + 1)
    else acc

/-- The maximal consecutive fall distance computed by the `Drop` arm of
`apply_command` (src/game/field_under_agent_control.rs). -/
def drop_shift (field : Field) (block : Block) (left_top : Pos) : Nat :=
  drop_shift_loop field block left_top (20 - left_top.y).toNat 0

/-- The shake offsets scanned by the rotation arms: all values yielded by
`Shake::new().take_while(|v| v.abs() <= bound)`.  The shake magnitudes are
non-decreasing, so the `take_while` stops within the first
`2 * bound + 2` values. -/
def shakeBounded (bound : Int) : List Int :=
  (shakeTake (2 * bound.toNat + 2) 0).takeWhile fun v => decide (|v| ≤ bound)

/-- One game command applied to the controlled field
(src/game/field_under_agent_control.rs `FieldUnderAgentControl::apply_command`). -/
def apply_command (s : FieldUnderAgentControl) (command : GameCommand) :
    GameCommandResult :=
  match command with
  | GameCommand.Right => apply_shift s 1 0 false
  | GameCommand.Left => apply_shift s (-1) 0 false
  | GameCommand.Down => apply_shift s 0 1 true
  | GameCommand.Drop =>
    let d := drop_shift s.field s.controlled_block.block s.controlled_block.left_top
    let final_pos := s.controlled_block.left_top.mv 0 (d : Int)
    let dropped_block : ControlledBlock := ⟨s.controlled_block.block, final_pos⟩
    GameCommandResult.ProceedAnimation (place_block dropped_block s.field) s.block_queue
  | GameCommand.RotateClockwise | GameCommand.RotateUnticlockwise =>
    let rotated_block :=
      if command = GameCommand.RotateClockwise then
        s.controlled_block.block.rotate_clockwise
      else
        s.controlled_block.block.rotate_unticlockwise
    let shift_max : Int := (s.controlled_block.block.cell_table_size : Int) / 2
    let cands := (shakeBounded shift_max).flatMap fun y =>
      (shakeBounded shift_max).map fun x => s.controlled_block.left_top.mv x y
    match cands.find? (fun p => is_arrangeable s.field rotated_block p) with
    | some shifted_pos =>
      GameCommandResult.WaitNextCommand
        ⟨s.field, ⟨rotated_block, shifted_pos⟩, s.block_queue⟩
    | none => GameCommandResult.WaitNextCommand s
  | GameCommand.Hold =>
    let popped_block := s.block_queue.hold_block
    match find_block_appearance_pos s.field popped_block with
    | some pos =>
      GameCommandResult.WaitNextCommand
        ⟨s.field, ⟨popped_block, pos⟩,
          ⟨s.block_queue.next_blocks, s.controlled_block.block⟩⟩
    | none => GameCommandResult.WaitNextCommand s

/-- The list of y coordinates of the completely filled rows, top to bottom
(the scan inside src/game/animation/full_row.rs `FullRow::new`). -/
def filled_row_ys (f : Field) : List Int :=
  ((List.finRange HEIGHT).filter fun y =>
    (List.finRange WIDTH).all fun x => !(f.cells y x).is_empty).map
    fun y => (y.val : Int)

/-- The `filled_row_ys` field computed by `FullRow::new`
(src/game/animation/full_row.rs): the filled rows of the field, except that a
result identical to the caller-supplied previous list is replaced by the
empty list. -/
def full_row_new (f : Field) (previous_filled_rows : List Int) : List Int :=
  let filled := filled_row_ys f
  if filled = previous_filled_rows then [] else filled

/-- A rectangular region of interest (src/geometry/roi.rs
`RegionOfInterest`); the `size` Movement is stored as its x and y
components. -/
structure RegionOfInterest where
  left_top : Pos
  size_x : Int
  size_y : Int
deriving DecidableEq, Repr

/-- Membership test of a region (src/geometry/roi.rs
`RegionOfInterest::contains`). -/
def RegionOfInterest.contains (roi : RegionOfInterest) (pos : Pos) : Bool :=
  decide (roi.left_top.x ≤ pos.x ∧ pos.x < roi.left_top.x + roi.size_x ∧
    roi.left_top.y ≤ pos.y ∧ pos.y < roi.left_top.y + roi.size_y)

/-- The lattice points of a region, row by row from the top (src/geometry/
roi.rs `RegionOfInterest::iter_pos`; the source unwraps the sizes as
non-negative indices, so a negative size is treated as zero). -/
def RegionOfInterest.iter_pos (roi : RegionOfInterest) : List Pos :=
  (List.range roi.size_y.toNat).flatMap fun y =>
    (List.range roi.size_x.toNat).map fun x => roi.left_top.mv (x : Int) (y : Int)

/-- The explosion chain counter (src/game/animation/explosion.rs
`ChainCounter`): a counter over the unbounded range `0..`, so `next` always
increments. -/
structure ChainCounter where
  current_chain : Nat
deriving DecidableEq, Repr

/-- A fresh chain counter (src/game/animation/explosion.rs
`ChainCounter::new`). -/
def ChainCounter.new : ChainCounter := ⟨0⟩

/-- Increment of the chain counter (src/game/animation/explosion.rs
`ChainCounter::next`). -/
def ChainCounter.next (c : ChainCounter) : ChainCounter := ⟨c.current_chain + 1⟩

/-- The blast power of a wave (src/game/animation/explosion.rs
`ExplosionPower::new`): filled-row count plus the current chain index. -/
structure ExplosionPower where
  power : Nat
deriving DecidableEq, Repr

/-- Constructor of the blast power (src/game/animation/explosion.rs
`ExplosionPower::new`). -/
def ExplosionPower.new (filled_row_count : Nat) (chain_counter : ChainCounter) :
    ExplosionPower :=
  ⟨filled_row_count + chain_counter.current_chain⟩

/-- Which cells can act as explosion centers (src/game/animation/explosion.rs
`is_explodable`). -/
def is_explodable (cell : Cell) : Bool :=
  match cell with
  | Cell.Bomb => true
  | Cell.BigBombUpperLeft => true
  | _ => false

/-- The `(x, y)` half-extent table of `bomb_explosion_area`
(src/game/animation/explosion.rs): a step function of the power, capped at
`(8, 8)` (the catch-all `_` arm, which also covers power 0). -/
def bomb_explosion_extent (power : Nat) : Int × Int :=
  match power with
  | 1 => (3, 0)
  | 2 => (3, 1)
  | 3 => (3, 2)
  | 4 => (3, 3)
  | 5 | 6 => (4, 4)
  | 7 | 8 => (5, 5)
  | 9 | 10 => (6, 6)
  | 11 | 12 => (7, 7)
  | _ => (8, 8)

/-- Blast region of a plain bomb (src/game/animation/explosion.rs
`bomb_explosion_area`): the square of half-extents `(x, y)` centered at the
bomb. -/
def bomb_explosion_area (explosion_power : ExplosionPower) (pos : Pos) :
    RegionOfInterest :=
  let xy : Int × Int := bomb_explosion_extent explosion_power.power
  ⟨pos.mv (-xy.1) (-xy.2), xy.1 * 2 + 1, xy.2 * 2 + 1⟩

/-- Blast region of a big bomb (src/game/animation/explosion.rs
`big_bomb_explosion_area`): a fixed 10×10 square around the anchor cell,
independent of the power. -/
def big_bomb_explosion_area (big_bomb_upper_left_pos : Pos) : RegionOfInterest :=
  ⟨big_bomb_upper_left_pos.mv (-4) (-4), 10, 10⟩

/-- Blast region of an arbitrary cell (src/game/animation/explosion.rs
`explosion_area`): only explodable cells have one. -/
def explosion_area (explosion_power : ExplosionPower) (cell : Cell) (pos : Pos) :
    Option RegionOfInterest :=
  match cell with
  | Cell.Bomb => some (bomb_explosion_area explosion_power pos)
  | Cell.BigBombUpperLeft => some (big_bomb_explosion_area pos)
  | _ => none

/-- Union of the blast regions of all centers (src/game/animation/explosion.rs
`scan_exploded_cell_positions`).  The source unwraps `field.get(pos)`; every
call site passes in-bounds centers, and the `Cell.Empty` default used here has
no blast region, so the default is inert. -/
def scan_exploded_cell_positions (field : Field)
    (explodable_center_cell_positions : Finset Pos)
    (explosion_power : ExplosionPower) : Finset Pos :=
  explodable_center_cell_positions.biUnion fun pos =>
    match explosion_area explosion_power ((field.get pos).getD Cell.Empty) pos with
    | some roi => roi.iter_pos.toFinset
    | none => ∅

/-- Explodable cells caught in the blast without being centers
(src/game/animation/explosion.rs `scan_caught_explosion_cell_positions`): the
symmetric difference of centers and exploded cells, filtered to in-bounds
explodable cells. -/
def scan_caught_explosion_cell_positions (field : Field)
    (explodable_center_cell_positions exploded_cell_positions : Finset Pos) :
    Finset Pos :=
  ((explodable_center_cell_positions \ exploded_cell_positions) ∪
      (exploded_cell_positions \ explodable_center_cell_positions)).filter
    fun pos => ((field.get pos).map is_explodable).getD false

/-- Animation frame counter (src/game/animation.rs `AnimationFrame`; the
source field `end` is renamed `end_frame` after its accessor). -/
structure AnimationFrame where
  current : Nat
  end_frame : Nat
deriving DecidableEq, Repr

/-- Frame construction (src/game/animation.rs
`AnimationFrame::with_frame_count`). -/
def AnimationFrame.with_frame_count (n : Nat) : AnimationFrame := ⟨0, n⟩

/-- One frame tick (src/game/animation.rs `AnimationFrame::wait_next`, minus
the wall-clock sleep): `none` once the end frame is reached. -/
def AnimationFrame.wait_next (f : AnimationFrame) : Option AnimationFrame :=
  if f.current = f.end_frame then none else some ⟨f.current + 1, f.end_frame⟩

/-- The field together with the block queue, as carried through animations
(src/game/animation.rs `AnimationField`). -/
structure AnimationField where
  field : Field
  block_queue : BlockQueue

/-- Result of one animation tick (src/game/animation.rs `AnimationResult`). -/
inductive AnimationResult (P F : Type)
  | InProgress (next : P)
  | Finished (result : F)

/-- The frame count of one explosion wave (src/game/animation/explosion.rs
`animation_frame`). -/
def animation_frame : AnimationFrame := AnimationFrame.with_frame_count 20

/-- State of the explosion cascade animation (src/game/animation/explosion.rs
`Explosion`). -/
structure Explosion where
  field : AnimationField
  current_chain : ChainCounter
  filled_row_count : Nat
  caught_bomb_positions : Finset Pos
  exploded_cell_positions : Finset Pos
  frame : AnimationFrame

/-- Result of starting the explosion animation
(src/game/animation/explosion.rs `ExplosionInitResult`). -/
inductive ExplosionInitResult
  | Explodes (e : Explosion)
  | Stay (field : AnimationField)

/-- The explosion centers of the first wave (the scan inside
src/game/animation/explosion.rs `Explosion::try_init`): explodable cells
lying in rows whose y coordinate is in the caller-supplied filled-row list.
Modelled from the spec: the row accessor `FieldRow::cell_refs` is missing
from the source snapshot; per its callers it enumerates the row's cells with
their positions left to right. -/
def explodable_center_cell_positions (f : Field) (filled_rows : List Int) :
    Finset Pos :=
  (((List.finRange HEIGHT).filter fun y => decide ((y.val : Int) ∈ filled_rows)).flatMap
    fun y => ((List.finRange WIDTH).filter fun x => is_explodable (f.cells y x)).map
      fun x => (⟨(x.val : Int), (y.val : Int)⟩ : Pos)).toFinset

/-- Setting every listed cell of the field to `Empty` (the commit loop of
src/game/animation/explosion.rs `Explosion::wait_next`, whose per-position
writes all commute, and which drops out-of-bounds positions via
`if let Some(c) = get_mut`). -/
def Field.clear_positions (f : Field) (ps : Finset Pos) : Field :=
  ⟨fun y x =>
    if (⟨(x.val : Int), (y.val : Int)⟩ : Pos) ∈ ps then Cell.Empty
    else f.cells y x⟩

/-- Starting the explosion cascade (src/game/animation/explosion.rs
`Explosion::try_init`). -/
def Explosion.try_init (field : AnimationField) (filled_rows : List Int)
    (current_chain : ChainCounter) : ExplosionInitResult :=
  let filled_row_count := filled_rows.length
  let explosion_power := ExplosionPower.new filled_row_count current_chain
  let centers := explodable_center_cell_positions field.field filled_rows
  let exploded := scan_exploded_cell_positions field.field centers explosion_power
  let caught := scan_caught_explosion_cell_positions field.field centers exploded
  if exploded = ∅ then ExplosionInitResult.Stay field
  else
    ExplosionInitResult.Explodes
      ⟨field, current_chain, filled_row_count, caught, exploded, animation_frame⟩

/-- One tick of the explosion animation (src/game/animation/explosion.rs
`Explosion::wait_next`): while frames remain only the frame advances; when
the wave's frames are exhausted, either the cascade finishes (no caught
bombs: exploded cells are cleared and the chain counter is incremented once)
or the caught bombs become the next wave's centers (with the chain counter
left unchanged). -/
def Explosion.wait_next (e : Explosion) :
    AnimationResult Explosion (AnimationField × ChainCounter) :=
  match e.frame.wait_next with
  | some next_frame =>
    AnimationResult.InProgress
      ⟨e.field, e.current_chain, e.filled_row_count, e.caught_bomb_positions,
        e.exploded_cell_positions, next_frame⟩
  | none =>
    if e.caught_bomb_positions = ∅ then
      let cleared := e.field.field.clear_positions e.exploded_cell_positions
      AnimationResult.Finished
        (⟨cleared, e.field.block_queue⟩, e.current_chain.next)
    else
      let explosion_power := ExplosionPower.new e.filled_row_count e.current_chain
      let centers := e.caught_bomb_positions
      let exploded := scan_exploded_cell_positions e.field.field centers explosion_power
      let caught := scan_caught_explosion_cell_positions e.field.field centers exploded
      let cleared := e.field.field.clear_positions e.exploded_cell_positions
      AnimationResult.InProgress
        ⟨⟨cleared, e.field.block_queue⟩, e.current_chain, e.filled_row_count,
          caught, exploded, animation_frame⟩

/-- In-bounds predicate for a field position (the coordinate range accepted
by `Field::get`). -/
abbrev Pos.in_field (p : Pos) : Prop :=
  0 ≤ p.x ∧ p.x < (WIDTH : Int) ∧ 0 ≤ p.y ∧ p.y < (HEIGHT : Int)

/-- Every in-bounds position, row by row from the top. -/
def all_positions : List Pos :=
  (List.finRange HEIGHT).flatMap fun y =>
    (List.finRange WIDTH).map fun x => (⟨(x.val : Int), (y.val : Int)⟩ : Pos)

/-- Whether the field holds a non-empty cell at `p` (the
`field.get(p).take_if(|c| !c.is_empty())` guard of the gravity scans); false
out of bounds. -/
def Field.non_empty_at (f : Field) (p : Pos) : Bool :=
  ((f.get p).map fun c => !c.is_empty).getD false

/-- The four neighbours visited by the flood fill, in the source's order
(src/game/animation/drop_cell.rs `scan_connection`: right, left, below,
above). -/
def neighbors (p : Pos) : List Pos :=
  [p.mv 1 0, p.mv (-1) 0, p.mv 0 1, p.mv 0 (-1)]

/-- One expansion step of the support flood fill: add every in-bounds
non-empty cell adjacent to the current set. -/
def expand_connection (f : Field) (s : Finset Pos) : Finset Pos :=
  s ∪ (all_positions.filter fun p =>
    f.non_empty_at p && (neighbors p).any fun q => decide (q ∈ s)).toFinset

/-- The non-empty cells of the bottom row, the seeds of the support scan
(src/game/animation/drop_cell.rs `scan_connection_on_ground` seeds the fill
from every bottom-row cell, and `scan_connection` keeps only non-empty
ones). -/
def ground_seeds (f : Field) : Finset Pos :=
  (((List.finRange WIDTH).map fun x =>
      (⟨(x.val : Int), ((HEIGHT : Int) - 1)⟩ : Pos)).filter
    fun p => f.non_empty_at p).toFinset

/-- The set of cells 4-connected to the ground through non-empty cells
(src/game/animation/drop_cell.rs `scan_connection_on_ground`).  The source's
recursive flood fill computes the least superset of the seeds closed under
non-empty adjacency; here it is embedded as a monotone iteration whose 201
steps provably reach that least fixed point (the field has only 200
cells). -/
def scan_connection_on_ground (f : Field) : Finset Pos :=
  (expand_connection f)^[201] (ground_seeds f)

/-- Whether the cell at `p` is floating: non-empty but not connected to the
ground (the membership test inside src/game/animation/drop_cell.rs
`scan_floating_cell_positions`). -/
def float_at (f : Field) (p : Pos) : Bool :=
  f.non_empty_at p && !(decide (p ∈ scan_connection_on_ground f))

/-- The set of floating cells (src/game/animation/drop_cell.rs
`scan_floating_cell_positions`). -/
def scan_floating_cell_positions (f : Field) : Finset Pos :=
  (all_positions.filter (float_at f)).toFinset

/-- The floating cells in the processing order of the drop loop
(src/game/animation/drop_cell.rs `DropCell::wait_next` sorts the floating
set by y and reverses it, processing lower rows first; the order of cells
within one row is left unspecified by the source's `HashSet` and does not
affect the result). -/
def floating_positions_desc (f : Field) : List Pos :=
  (all_positions.filter (float_at f)).reverse

/-- Moving one cell one row down (the loop body of
src/game/animation/drop_cell.rs `DropCell::wait_next`): the destination
receives the source's value and the source becomes empty.  The source's
`unwrap`s are modelled by the inert default and by `Field.set` dropping
out-of-bounds writes; `move_cell_checked` below shows they never fire. -/
def move_cell (f : Field) (p : Pos) : Field :=
  (f.set (p.mv 0 1) ((f.get p).getD Cell.Empty)).set p Cell.Empty

/-- One gravity move step over a list of positions. -/
def move_positions (f : Field) (ps : List Pos) : Field :=
  ps.foldl move_cell f

/-- All floating cells moved one row down, lower rows first (the non-empty
branch of src/game/animation/drop_cell.rs `DropCell::wait_next`). -/
def move_floating (f : Field) : Field :=
  move_positions f (floating_positions_desc f)

/-- Checked variant of `move_cell`: `none` when any `unwrap` or
`debug_assert` of the source loop body would fire, or when the destination is
not empty at the moment it is written (the safety property claimed of the
step). -/
def move_cell_checked (f : Field) (p : Pos) : Option Field :=
  match f.get p, f.get (p.mv 0 1) with
  | some c, some d =>
    if c.is_empty = false ∧ d.is_empty = true then some (move_cell f p) else none
  | _, _ => none

/-- Checked variant of `move_floating`. -/
def move_floating_checked (f : Field) : Option Field :=
  (floating_positions_desc f).foldl
    (fun of p => of.bind fun g => move_cell_checked g p) (some f)

/-- State of the gravity animation (src/game/animation/drop_cell.rs
`DropCell`). -/
structure DropCell where
  field : AnimationField
  floating_cell_positions : Finset Pos

/-- Constructor of the gravity animation (src/game/animation/drop_cell.rs
`DropCell::new`). -/
def DropCell.new (field : AnimationField) : DropCell :=
  ⟨field, scan_floating_cell_positions field.field⟩

/-- One tick of the gravity animation (src/game/animation/drop_cell.rs
`DropCell::wait_next`).  In every state produced by `DropCell::new` or by
this function the stored floating set equals the scan of the stored field,
which is what the move uses here. -/
def DropCell.wait_next (d : DropCell) : AnimationResult DropCell AnimationField :=
  if d.floating_cell_positions = ∅ then AnimationResult.Finished d.field
  else
    let moved := move_floating d.field.field
    AnimationResult.InProgress
      ⟨⟨moved, d.field.block_queue⟩, scan_floating_cell_positions moved⟩

/-- One gravity step on a bare field: the field transformation performed by
`DropCell::wait_next` (the identity once no cell floats). -/
def drop_cell_step (f : Field) : Field :=
  if scan_floating_cell_positions f = ∅ then f else move_floating f

/-- The multiset of non-empty cell values on the field. -/
def non_empty_cell_multiset (f : Field) : Multiset Cell :=
  ((all_positions : Multiset Pos).map fun p => (f.get p).getD Cell.Empty).filter
    fun c => c.is_empty = false

/-- Ground-connectedness as an inductive reachability predicate: the
specification-level reading of the flood fill (`scan_connection_on_ground`
computes exactly this set, see `mem_scan_connection_on_ground`). -/
inductive Supp (f : Field) : Pos → Prop
  | base (p : Pos) (hy : p.y = (HEIGHT : Int) - 1) (hne : f.non_empty_at p = true) :
      Supp f p
  | step (p q : Pos) (hq : Supp f q) (hadj : p ∈ neighbors q)
      (hne : f.non_empty_at p = true) : Supp f p

/-! ### Concrete objects used by counterexamples and witnesses -/

/-- The shape table of the single-cell block `SingleBlockShape::O`
(src/game/block_template.rs): one occupied cell at the center of the 5×5
table, for every orientation. -/
def single_o_tables : CellTagTableCollection :=
  fun _ y x => if y.val = 2 ∧ x.val = 2 then CellTag.Occupied 0 else CellTag.Empty

/-- A single-cell block with no bomb, as produced by `generate_block` for
`SingleBlockShape::O` with `BombTag::None`. -/
def single_o_block : Block := Block.new single_o_tables Direction.Above BombTag.None

/-- A concrete block queue (two next blocks and a hold block). -/
def ex_queue : BlockQueue := ⟨⟨fun _ => single_o_block⟩, single_o_block⟩

/-! ### Basic helper lemmas -/

theorem Cell.is_empty_eq_true_iff (c : Cell) : c.is_empty = true ↔ c = Cell.Empty := by
  cases c <;> simp [Cell.is_empty]

theorem Cell.is_empty_eq_false_iff (c : Cell) : c.is_empty = false ↔ c ≠ Cell.Empty := by
  cases c <;> simp [Cell.is_empty]

theorem map_is_empty_getD_iff (o : Option Cell) :
    (o.map Cell.is_empty).getD false = true ↔ o = some Cell.Empty := by
  cases o with
  | none => simp
  | some c => simp [Cell.is_empty_eq_true_iff]

theorem Field.in_field_of_get_eq_some {f : Field} {p : Pos} {c : Cell}
    (h : f.get p = some c) : p.in_field := by
  by_cases hb : (0 ≤ p.x ∧ p.x < (WIDTH : Int) ∧ 0 ≤ p.y ∧ p.y < (HEIGHT : Int))
  · exact hb
  · rw [Field.get, dif_neg hb] at h
    cases h

theorem Field.get_eq_some_of_in_field {f : Field} {p : Pos}
    (h : 0 ≤ p.x ∧ p.x < (WIDTH : Int) ∧ 0 ≤ p.y ∧ p.y < (HEIGHT : Int)) :
    f.get p = some (f.cells ⟨p.y.toNat, by omega⟩ ⟨p.x.toNat, by omega⟩) := by
  rw [Field.get, dif_pos h]

theorem mem_iter_pos_and_occupied {b : Block} {pc : Pos × Cell} :
    pc ∈ b.iter_pos_and_occupied_cell ↔
      ∃ y x : Fin BLOCK_TABLE_SIZE, b.cells y x ≠ Cell.Empty ∧
        pc = ((⟨(x.val : Int), (y.val : Int)⟩ : Pos), b.cells y x) := by
  simp only [Block.iter_pos_and_occupied_cell, List.mem_flatMap, List.mem_filter,
    List.mem_map, List.mem_finRange, true_and, decide_eq_true_eq, ne_eq]
  constructor
  · rintro ⟨y, ⟨x, rfl⟩, hne⟩
    exact ⟨y, x, hne, rfl⟩
  · rintro ⟨y, x, hne, rfl⟩
    exact ⟨y, ⟨x, rfl⟩, hne⟩

/-- The characterization behind claim C1, shared by several proofs. -/
theorem is_arrangeable_iff (field : Field) (block : Block) (anchor : Pos) :
    is_arrangeable field block anchor = true ↔
      ∀ y x : Fin BLOCK_TABLE_SIZE, block.cells y x ≠ Cell.Empty →
        (0 ≤ (x.val : Int) + anchor.x ∧ (x.val : Int) + anchor.x < (WIDTH : Int) ∧
          0 ≤ (y.val : Int) + anchor.y ∧ (y.val : Int) + anchor.y < (HEIGHT : Int) ∧
          field.get ⟨(x.val : Int) + anchor.x, (y.val : Int) + anchor.y⟩ =
            some Cell.Empty) := by
  unfold is_arrangeable
  rw [List.all_eq_true]
  constructor
  · intro h y x hocc
    have hmem : ((⟨(x.val : Int), (y.val : Int)⟩ : Pos).mv anchor.x anchor.y) ∈
        block.iter_pos_and_occupied_cell.map fun pc => pc.1.mv anchor.x anchor.y := by
      refine List.mem_map.mpr ⟨((⟨(x.val : Int), (y.val : Int)⟩ : Pos), block.cells y x), ?_, rfl⟩
      exact mem_iter_pos_and_occupied.mpr ⟨y, x, hocc, rfl⟩
    have hget := (map_is_empty_getD_iff _).mp (h _ hmem)
    have hb := Field.in_field_of_get_eq_some hget
    simp only [Pos.mv] at hget hb
    exact ⟨hb.1, hb.2.1, hb.2.2.1, hb.2.2.2, hget⟩
  · intro h pos hmem
    obtain ⟨pc, hpc, rfl⟩ := List.mem_map.mp hmem
    obtain ⟨y, x, hne, rfl⟩ := mem_iter_pos_and_occupied.mp hpc
    exact (map_is_empty_getD_iff _).mpr (h y x hne).2.2.2.2

/-- C1: for every field, block and anchor position, `is_arrangeable` returns
true iff every occupied cell of the block, mapped to anchor plus its relative
offset, lies inside [0,width)×[0,height) and the field cell there is Empty —
so it returns false as soon as any occupied cell lands out of bounds or on a
non-Empty cell. -/
theorem C1_is_arrangeable_spec (field : Field) (block : Block) (anchor : Pos) :
    is_arrangeable field block anchor = true ↔
      ∀ y x : Fin BLOCK_TABLE_SIZE, block.cells y x ≠ Cell.Empty →
        (0 ≤ (x.val : Int) + anchor.x ∧ (x.val : Int) + anchor.x < (WIDTH : Int) ∧
          0 ≤ (y.val : Int) + anchor.y ∧ (y.val : Int) + anchor.y < (HEIGHT : Int) ∧
          field.get ⟨(x.val : Int) + anchor.x, (y.val : Int) + anchor.y⟩ =
            some Cell.Empty) :=
  is_arrangeable_iff field block anchor

/-- C9: rotating any block four times clockwise returns a block identical to
the original, and likewise four times counter-clockwise; this holds for every
shape table, every orientation and every bomb tag, hence for every block the
program constructs. -/
theorem C9_rotate_four_times_identity (tables : CellTagTableCollection)
    (direction : Direction) (bomb_tag : BombTag) :
    (Block.new tables direction
        bomb_tag).rotate_clockwise.rotate_clockwise.rotate_clockwise.rotate_clockwise =
        Block.new tables direction bomb_tag ∧
      (Block.new tables direction
          bomb_tag).rotate_unticlockwise.rotate_unticlockwise.rotate_unticlockwise.rotate_unticlockwise =
        Block.new tables direction bomb_tag := by
  cases direction <;> exact ⟨rfl, rfl⟩

/-! ### C8: blast-region monotonicity -/

theorem bomb_explosion_extent_ge13 (p : Nat) (h : 13 ≤ p) :
    bomb_explosion_extent p = (8, 8) := by
  match p, h with
  | (n + 13), _ => rfl

theorem bomb_explosion_extent_bounds (p : Nat) :
    0 ≤ (bomb_explosion_extent p).1 ∧ (bomb_explosion_extent p).1 ≤ 8 ∧
      0 ≤ (bomb_explosion_extent p).2 ∧ (bomb_explosion_extent p).2 ≤ 8 := by
  by_cases h : p < 14
  · have hb : ∀ q < 14, 0 ≤ (bomb_explosion_extent q).1 ∧
        (bomb_explosion_extent q).1 ≤ 8 ∧ 0 ≤ (bomb_explosion_extent q).2 ∧
        (bomb_explosion_extent q).2 ≤ 8 := by decide
    exact hb p h
  · rw [bomb_explosion_extent_ge13 p (by omega)]
    decide

theorem bomb_explosion_extent_mono {p q : Nat} (h1 : 1 ≤ p) (hpq : p ≤ q) :
    (bomb_explosion_extent p).1 ≤ (bomb_explosion_extent q).1 ∧
      (bomb_explosion_extent p).2 ≤ (bomb_explosion_extent q).2 := by
  by_cases hq : q < 14
  · have hb : ∀ a < 14, ∀ b < 14, 1 ≤ a → a ≤ b →
        (bomb_explosion_extent a).1 ≤ (bomb_explosion_extent b).1 ∧
          (bomb_explosion_extent a).2 ≤ (bomb_explosion_extent b).2 := by decide
    exact hb p (by omega) q hq h1 hpq
  · rw [bomb_explosion_extent_ge13 q (by omega)]
    have hbd := bomb_explosion_extent_bounds p
    exact ⟨hbd.2.1, hbd.2.2.2⟩

theorem bomb_area_contains_iff (p : Nat) (pos q : Pos) :
    (bomb_explosion_area ⟨p⟩ pos).contains q = true ↔
      (pos.x - (bomb_explosion_extent p).1 ≤ q.x ∧
        q.x ≤ pos.x + (bomb_explosion_extent p).1 ∧
        pos.y - (bomb_explosion_extent p).2 ≤ q.y ∧
        q.y ≤ pos.y + (bomb_explosion_extent p).2) := by
  simp only [bomb_explosion_area, RegionOfInterest.contains, Pos.mv,
    decide_eq_true_eq]
  constructor <;> intro h <;> exact ⟨by omega, by omega, by omega, by omega⟩

/-- C8: the blast region of a plain bomb is a square around the center whose
half-extents are a monotone non-decreasing step function of the power
`filled-row-count + chain index` (for the powers `≥ 1` that arise), saturate
at the maximal `(8, 8)` region reached from power 13 on, and in particular
the region for power 1 is contained in the region for power 12; a BigBomb
center always uses the one fixed 10×10 region, whatever the power, and that
region contains the power-1 bomb region. -/
theorem C8_blast_region_monotone :
    (∀ (pos q : Pos) (p1 p2 : Nat), 1 ≤ p1 → p1 ≤ p2 →
        (bomb_explosion_area ⟨p1⟩ pos).contains q = true →
        (bomb_explosion_area ⟨p2⟩ pos).contains q = true) ∧
      (∀ (pos q : Pos) (p : Nat),
          (bomb_explosion_area ⟨p⟩ pos).contains q = true →
          (bomb_explosion_area ⟨13⟩ pos).contains q = true) ∧
      (∀ p : Nat, 13 ≤ p → ∀ pos : Pos,
          bomb_explosion_area ⟨p⟩ pos = bomb_explosion_area ⟨13⟩ pos) ∧
      (∀ pos q : Pos, (bomb_explosion_area ⟨1⟩ pos).contains q = true →
          (bomb_explosion_area ⟨12⟩ pos).contains q = true) ∧
      (∀ (power : ExplosionPower) (pos : Pos),
          explosion_area power Cell.BigBombUpperLeft pos =
            some (big_bomb_explosion_area pos)) ∧
      (∀ pos q : Pos, (bomb_explosion_area ⟨1⟩ pos).contains q = true →
          (big_bomb_explosion_area pos).contains q = true) := by
  refine ⟨?_, ?_, ?_, ?_, fun _ _ => rfl, ?_⟩
  · intro pos q p1 p2 h1 hle hc
    rw [bomb_area_contains_iff] at hc ⊢
    have hm := bomb_explosion_extent_mono h1 hle
    exact ⟨by omega, by omega, by omega, by omega⟩
  · intro pos q p hc
    rw [bomb_area_contains_iff] at hc ⊢
    have hb := bomb_explosion_extent_bounds p
    revert hc hb
    rw [bomb_explosion_extent_ge13 13 (by omega)]
    intro hb hc
    exact ⟨by omega, by omega, by omega, by omega⟩
  · intro p hp pos
    unfold bomb_explosion_area
    rw [bomb_explosion_extent_ge13 p hp, bomb_explosion_extent_ge13 13 (by omega)]
  · intro pos q hc
    rw [bomb_area_contains_iff] at hc ⊢
    revert hc
    show _ → _
    simp only [bomb_explosion_extent]
    intro hc
    exact ⟨by omega, by omega, by omega, by omega⟩
  · intro pos q hc
    rw [bomb_area_contains_iff] at hc
    simp only [bomb_explosion_extent] at hc
    simp only [big_bomb_explosion_area, RegionOfInterest.contains, Pos.mv,
      decide_eq_true_eq]
    exact ⟨by omega, by omega, by omega, by omega⟩

/-- Witness for C8: the power-1 region around the origin contains `(1, 0)`,
so by monotonicity the power-12 region does as well. -/
theorem C8_blast_region_monotone_witness :
    (bomb_explosion_area ⟨12⟩ ⟨0, 0⟩).contains ⟨1, 0⟩ = true :=
  C8_blast_region_monotone.1 ⟨0, 0⟩ ⟨1, 0⟩ 1 12 (by decide) (by decide) (by decide)

/-! ### C5: the line-clear detector -/

theorem mem_filled_row_ys_iff (f : Field) (y : Int) :
    y ∈ filled_row_ys f ↔
      ∃ yf : Fin HEIGHT, (yf.val : Int) = y ∧
        ∀ x : Fin WIDTH, (f.cells yf x).is_empty = false := by
  simp only [filled_row_ys, List.mem_map, List.mem_filter, List.mem_finRange,
    true_and, List.all_eq_true, Bool.not_eq_eq_eq_not, Bool.not_true]
  constructor
  · rintro ⟨yf, hall, rfl⟩
    exact ⟨yf, rfl, fun x => hall x trivial⟩
  · rintro ⟨yf, rfl, hall⟩
    exact ⟨yf, fun x _ => hall x, rfl⟩

theorem filled_row_ys_sorted (f : Field) : (filled_row_ys f).Pairwise (· < ·) := by
  unfold filled_row_ys
  have hp : (List.finRange HEIGHT).Pairwise (· < ·) := List.pairwise_lt_finRange HEIGHT
  have hf := hp.filter (fun y => (List.finRange WIDTH).all fun x => !(f.cells y x).is_empty)
  exact List.Pairwise.map _ (fun a b hab => by exact_mod_cast hab) hf

/-- C5 (amended): the detector computes exactly the rows all of whose cells
are non-empty, in increasing (top-to-bottom) row order, and returns the empty
list instead exactly when that list coincides with the caller-supplied
previous list as a sequence (same rows in the same order — member equality in
a different order does not suppress, see the counterexample). -/
theorem C5_full_row_detector (f : Field) (previous_filled_rows : List Int) :
    (∀ y : Int, y ∈ filled_row_ys f ↔
        ∃ yf : Fin HEIGHT, (yf.val : Int) = y ∧
          ∀ x : Fin WIDTH, (f.cells yf x).is_empty = false) ∧
      (filled_row_ys f).Pairwise (· < ·) ∧
      full_row_new f previous_filled_rows =
        (if filled_row_ys f = previous_filled_rows then [] else filled_row_ys f) :=
  ⟨fun y => mem_filled_row_ys_iff f y, filled_row_ys_sorted f, rfl⟩

/-- A field whose bottom two rows are completely filled. -/
def c5_field : Field := ⟨fun y _ => if 18 ≤ y.val then Cell.Normal else Cell.Empty⟩

/-- Counterexample for C5 as stated: with rows 18 and 19 full and the
previous list `[19, 18]`, the newly computed list `[18, 19]` has exactly the
same members as the previous list, yet the detector does not return the empty
list — suppression compares sequences, not member sets. -/
theorem C5_counterexample :
    (filled_row_ys c5_field).Perm [19, 18] ∧
      full_row_new c5_field [19, 18] = [18, 19] ∧
      full_row_new c5_field [19, 18] ≠ [] := by decide

/-! ### C6: no explosion without a center -/

/-- C6: if no explodable cell (a Bomb, or a BigBomb anchor cell) lies in any
of the supplied full rows, `Explosion::try_init` immediately reports `Stay`
with the very same animation field (cell contents untouched); the chain
counter value passed in is dropped unchanged, the caller keeps its own. -/
theorem C6_no_centers_no_explosion (field : AnimationField)
    (filled_rows : List Int) (current_chain : ChainCounter)
    (h : ∀ (y : Fin HEIGHT) (x : Fin WIDTH), (y.val : Int) ∈ filled_rows →
      is_explodable (field.field.cells y x) = false) :
    Explosion.try_init field filled_rows current_chain =
      ExplosionInitResult.Stay field := by
  have hc : explodable_center_cell_positions field.field filled_rows = ∅ := by
    rw [Finset.eq_empty_iff_forall_not_mem]
    intro p hp
    simp only [explodable_center_cell_positions, List.mem_toFinset, List.mem_flatMap,
      List.mem_filter, List.mem_finRange, List.mem_map, true_and,
      decide_eq_true_eq] at hp
    obtain ⟨y, hyrows, x, ⟨hx, rfl⟩⟩ := hp
    rw [h y x hyrows] at hx
    cases hx
  simp only [Explosion.try_init, hc, scan_exploded_cell_positions,
    Finset.biUnion_empty, if_pos rfl, if_true]

/-- Witness for C6: an empty field with row 19 declared full produces no
explosion and leaves the field untouched. -/
theorem C6_no_centers_no_explosion_witness :
    Explosion.try_init ⟨Field.empty, ex_queue⟩ [19] ChainCounter.new =
      ExplosionInitResult.Stay ⟨Field.empty, ex_queue⟩ :=
  C6_no_centers_no_explosion ⟨Field.empty, ex_queue⟩ [19] ChainCounter.new (by decide)

/-! ### C2: the appearance-position search -/

/-- A field occupying exactly the twelve cells that the appearance search can
probe with a single-cell block, leaving the rest (for instance the top-left
corner) free. -/
def c2_field : Field :=
  ⟨fun y x => if 4 ≤ x.val ∧ x.val ≤ 6 ∧ y.val ≤ 3 then Cell.Normal else Cell.Empty⟩

/-- Counterexample for C2 as stated: the claim says `None` is returned
exactly when the field cannot accept the block anywhere, but here the search
returns `None` although the block is arrangeable at anchor `(-2, -2)` (its
occupied cell would sit at the free corner `(0, 0)`): the search only probes
a bounded band of candidate anchors. -/
theorem C2_counterexample :
    find_block_appearance_pos c2_field single_o_block = none ∧
      is_arrangeable c2_field single_o_block ⟨-2, -2⟩ = true := by decide

/-- C2 (amended): the appearance search scans its fixed candidate band (rows
`-shift_max..shift_max` top to bottom, three shake offsets around the center
column per row) and returns the first candidate anchor at which the block is
arrangeable; it returns `None` iff no candidate in that bounded band is
arrangeable — which does not imply the field can accept the block nowhere
else. -/
theorem C2_appearance_search (field : Field) (block : Block) :
    (∀ p : Pos, find_block_appearance_pos field block = some p →
        is_arrangeable field block p = true ∧
          ∃ i : Nat, ∃ hi : i < (find_candidates block).length,
            (find_candidates block)[i] = p ∧
              ∀ j : Nat, (hj : j < i) →
                is_arrangeable field block ((find_candidates block)[j]) = false) ∧
      (find_block_appearance_pos field block = none ↔
        ∀ p ∈ find_candidates block, is_arrangeable field block p = false) := by
  constructor
  · intro p hp
    have h2 := List.find?_eq_some_iff_getElem.mp hp
    refine ⟨h2.1, ?_⟩
    obtain ⟨i, hi, heq, hbefore⟩ := h2.2
    refine ⟨i, hi, heq, fun j hj => ?_⟩
    have := hbefore j hj
    simpa using this
  · unfold find_block_appearance_pos
    rw [List.find?_eq_none]
    simp

/-- Witness for C2 (amended): on the empty field the search returns the very
first candidate anchor `(3, -2)`, which is arrangeable. -/
theorem C2_appearance_search_witness :
    is_arrangeable Field.empty single_o_block ⟨3, -2⟩ = true :=
  ((C2_appearance_search Field.empty single_o_block).1 ⟨3, -2⟩ (by decide)).1

/-! ### C4: the Down and Drop commands -/

theorem drop_shift_loop_le (f : Field) (b : Block) (lt : Pos) :
    ∀ fuel acc, acc ≤ drop_shift_loop f b lt fuel acc ∧
      drop_shift_loop f b lt fuel acc ≤ acc + fuel := by
  intro fuel
  induction fuel with
  | zero => intro acc; simp [drop_shift_loop]
  | succ n ih =>
    intro acc
    unfold drop_shift_loop
    split
    · have := ih (acc + 1)
      omega
    · omega

theorem drop_shift_loop_steps (f : Field) (b : Block) (lt : Pos) :
    ∀ fuel acc j, acc < j → j ≤ drop_shift_loop f b lt fuel acc →
      is_arrangeable f b (lt.mv 0 (j : Int)) = true := by
  intro fuel
  induction fuel with
  | zero =>
    intro acc j h1 h2
    have hz : drop_shift_loop f b lt 0 acc = acc := rfl
    omega
  | succ n ih =>
    intro acc j h1 h2
    unfold drop_shift_loop at h2
    split at h2
    · rcases Nat.eq_or_lt_of_le (Nat.succ_le_of_lt h1) with heq | hlt
      · have harr : is_arrangeable f b (lt.mv 0 ((acc : Int) + 1)) = true := by
          assumption
        have : ((j : Int)) = (acc : Int) + 1 := by omega
        rwa [this]
      · exact ih (acc + 1) j hlt h2
    · omega

theorem drop_shift_loop_stop (f : Field) (b : Block) (lt : Pos) :
    ∀ fuel acc, drop_shift_loop f b lt fuel acc < acc + fuel →
      is_arrangeable f b
        (lt.mv 0 ((drop_shift_loop f b lt fuel acc : Int) + 1)) = false := by
  intro fuel
  induction fuel with
  | zero =>
    intro acc h
    have hz : drop_shift_loop f b lt 0 acc = acc := rfl
    omega
  | succ n ih =>
    intro acc h
    unfold drop_shift_loop at h ⊢
    split at h
    · next harr =>
      rw [if_pos harr]
      exact ih (acc + 1) (by omega)
    · next harr =>
      rw [if_neg harr]
      exact Bool.eq_false_iff.mpr harr

/-- The two defining properties of the drop distance: every intermediate
one-cell fall is arrangeable, and one more cell down is not.  The hypothesis
that the block has at least one occupied cell guarantees the loop's fuel is
never exhausted (with no occupied cell the source loop would not terminate at
all). -/
theorem drop_shift_spec (f : Field) (b : Block) (lt : Pos)
    (hocc : b.iter_pos_and_occupied_cell ≠ []) :
    (∀ j : Nat, 1 ≤ j → j ≤ drop_shift f b lt →
        is_arrangeable f b (lt.mv 0 (j : Int)) = true) ∧
      is_arrangeable f b (lt.mv 0 ((drop_shift f b lt : Int) + 1)) = false := by
  constructor
  · intro j h1 h2
    exact drop_shift_loop_steps f b lt _ 0 j (by omega) h2
  · by_cases hterm : drop_shift f b lt < 0 + (20 - lt.y).toNat
    · exact drop_shift_loop_stop f b lt _ 0 hterm
    · have hle := drop_shift_loop_le f b lt (20 - lt.y).toNat 0
      have hd : drop_shift f b lt = (20 - lt.y).toNat := by
        unfold drop_shift at hterm ⊢
        omega
      obtain ⟨pc, hpc⟩ := List.exists_mem_of_ne_nil _ hocc
      obtain ⟨y0, x0, hne, rfl⟩ := mem_iter_pos_and_occupied.mp hpc
      rw [Bool.eq_false_iff]
      intro htrue
      have hchar :=
        ((is_arrangeable_iff f b (lt.mv 0 ((drop_shift f b lt : Int) + 1))).mp htrue)
          y0 x0 hne
      simp only [Pos.mv, WIDTH, HEIGHT] at hchar
      omega

/-- C4 (amended): `Down` shifts the anchor down one cell when arrangeable and
otherwise commits the block at the current anchor and proceeds; `Drop` falls
through consecutive arrangeable one-cell shifts, committing at the first
shift whose successor is blocked, and always proceeds.  (The committed drop
anchor need not be the globally maximal arrangeable downward shift — a free
pocket below an overhang is skipped, see the counterexample.) -/
theorem C4_down_and_drop (s : FieldUnderAgentControl)
    (hocc : s.controlled_block.block.iter_pos_and_occupied_cell ≠ []) :
    (is_arrangeable s.field s.controlled_block.block
          (s.controlled_block.left_top.mv 0 1) = true →
        apply_command s GameCommand.Down =
          GameCommandResult.WaitNextCommand
            ⟨s.field, ⟨s.controlled_block.block, s.controlled_block.left_top.mv 0 1⟩,
              s.block_queue⟩) ∧
      (is_arrangeable s.field s.controlled_block.block
            (s.controlled_block.left_top.mv 0 1) = false →
        apply_command s GameCommand.Down =
          GameCommandResult.ProceedAnimation
            (place_block s.controlled_block s.field) s.block_queue) ∧
      (apply_command s GameCommand.Drop =
        GameCommandResult.ProceedAnimation
          (place_block
            ⟨s.controlled_block.block,
              s.controlled_block.left_top.mv 0
                ((drop_shift s.field s.controlled_block.block
                  s.controlled_block.left_top : Int))⟩
            s.field) s.block_queue) ∧
      (∀ j : Nat, 1 ≤ j →
          j ≤ drop_shift s.field s.controlled_block.block s.controlled_block.left_top →
          is_arrangeable s.field s.controlled_block.block
            (s.controlled_block.left_top.mv 0 (j : Int)) = true) ∧
      is_arrangeable s.field s.controlled_block.block
        (s.controlled_block.left_top.mv 0
          ((drop_shift s.field s.controlled_block.block
            s.controlled_block.left_top : Int) + 1)) = false := by
  have hspec := drop_shift_spec s.field s.controlled_block.block
    s.controlled_block.left_top hocc
  refine ⟨?_, ?_, ?_, hspec.1, hspec.2⟩
  · intro h
    simp [apply_command, apply_shift, h]
  · intro h
    simp [apply_command, apply_shift, h]
  · rfl

/-- Projection extracting the committed field of a `ProceedAnimation`
result. -/
def proceed_field : GameCommandResult → Option Field
  | GameCommandResult.ProceedAnimation f _ => some f
  | _ => none

/-- A field with a single overhang cell at `(2, 5)`. -/
def c4_field : Field :=
  ⟨fun y x => if x.val = 2 ∧ y.val = 5 then Cell.Normal else Cell.Empty⟩

/-- A single-cell controlled block whose occupied cell sits at `(2, 3)`,
right above the overhang. -/
def c4_state : FieldUnderAgentControl :=
  ⟨c4_field, ⟨single_o_block, ⟨0, 1⟩⟩, ex_queue⟩

/-- Counterexample for C4 as stated: `Drop` commits the block one cell down
(anchor `(0, 2)`, occupied cell at `(2, 4)` just above the overhang) although
the larger downward shift to anchor `(0, 17)` (occupied cell at `(2, 19)`)
is arrangeable — the committed shift is not the maximal `d` with `anchor + d`
arrangeable, it is the maximal consecutive one. -/
theorem C4_counterexample :
    proceed_field (apply_command c4_state GameCommand.Drop) =
        some (place_block ⟨single_o_block, ⟨0, 2⟩⟩ c4_field) ∧
      is_arrangeable c4_field single_o_block ⟨0, 17⟩ = true ∧
      place_block ⟨single_o_block, ⟨0, 2⟩⟩ c4_field ≠
        place_block ⟨single_o_block, ⟨0, 17⟩⟩ c4_field := by decide

/-- A controlled single-cell block on the empty field, at its spawn anchor. -/
def c4w_state : FieldUnderAgentControl :=
  ⟨Field.empty, ⟨single_o_block, ⟨3, -2⟩⟩, ex_queue⟩

/-- Witness for C4 (amended): on the empty field the drop distance of the
spawned single-cell block is maximal-consecutive, and one further cell down
is not arrangeable. -/
theorem C4_down_and_drop_witness :
    is_arrangeable Field.empty single_o_block
        ((⟨3, -2⟩ : Pos).mv 0
          ((drop_shift Field.empty single_o_block ⟨3, -2⟩ : Int) + 1)) = false :=
  (C4_down_and_drop c4w_state (by decide)).2.2.2.2

/-! ### C3: the chain counter across explosion waves -/

/-- Projection extracting the `Explodes` state of `try_init`. -/
def explodes_state : ExplosionInitResult → Option Explosion
  | ExplosionInitResult.Explodes e => some e
  | ExplosionInitResult.Stay _ => none

/-- Running `wait_next` for `n` ticks while it stays in progress (`none` once
the cascade finishes earlier). -/
def Explosion.run_waves : Nat → Explosion → Option Explosion
  | 0, e => some e
  | n + 1, e =>
    match e.wait_next with
    | AnimationResult.InProgress e2 => Explosion.run_waves n e2
    | AnimationResult.Finished _ => none

/-- A field whose rows 18 and 19 are full, with a bomb at `(2, 18)` (an
explosion center) and a bomb at `(2, 17)` just above the filled band (caught
by the first blast, the center of the second wave). -/
def c3_field : Field :=
  ⟨fun y x =>
    if 18 ≤ y.val then (if x.val = 2 ∧ y.val = 18 then Cell.Bomb else Cell.Normal)
    else if x.val = 2 ∧ y.val = 17 then Cell.Bomb else Cell.Empty⟩

/-- Counterexample for C3 as stated: two rows are full, so the first wave has
power `2 + 0`.  After the first wave completes (21 ticks of the 20-frame
wave), the caught bomb at `(2, 17)` has become the next wave's center — but
the state's chain counter is still 0 and the next wave's exploded region is
the power-`2 + 0` region, not the power-`2 + 1` region the claim requires
(the two regions differ). -/
theorem C3_counterexample :
    ((explodes_state
          (Explosion.try_init ⟨c3_field, ex_queue⟩ [18, 19] ChainCounter.new)).bind
        (Explosion.run_waves 21)).map
        (fun s => (s.current_chain, s.exploded_cell_positions)) =
      some (ChainCounter.new,
        (bomb_explosion_area (ExplosionPower.new 2 ChainCounter.new)
          ⟨2, 17⟩).iter_pos.toFinset) ∧
      (bomb_explosion_area (ExplosionPower.new 2 ChainCounter.new)
          ⟨2, 17⟩).iter_pos.toFinset ≠
        (bomb_explosion_area (ExplosionPower.new 2 ChainCounter.new.next)
          ⟨2, 17⟩).iter_pos.toFinset := by
  decide

/-- C3 (amended): within one explosion cascade the chain counter stays
constant across waves — when the frames of a wave are exhausted and caught
bombs remain, the next wave is computed with power `filled-row-count + the
cascade's unchanged chain index` — and the counter is incremented exactly
once, when the whole cascade finishes. -/
theorem C3_chain_counter_per_cascade (e : Explosion)
    (hframe : e.frame.current = e.frame.end_frame) :
    (e.caught_bomb_positions = ∅ →
        e.wait_next = AnimationResult.Finished
          (⟨e.field.field.clear_positions e.exploded_cell_positions,
            e.field.block_queue⟩, e.current_chain.next)) ∧
      (e.caught_bomb_positions ≠ ∅ →
        ∃ e2 : Explosion,
          e.wait_next = AnimationResult.InProgress e2 ∧
            e2.current_chain = e.current_chain ∧
            e2.exploded_cell_positions =
              scan_exploded_cell_positions e.field.field e.caught_bomb_positions
                (ExplosionPower.new e.filled_row_count e.current_chain) ∧
            e2.filled_row_count = e.filled_row_count) := by
  have hw : e.frame.wait_next = none := by
    simp [AnimationFrame.wait_next, hframe]
  constructor
  · intro hempty
    simp [Explosion.wait_next, hw, hempty]
  · intro hne
    refine ⟨⟨⟨e.field.field.clear_positions e.exploded_cell_positions,
        e.field.block_queue⟩,
      e.current_chain, e.filled_row_count,
      scan_caught_explosion_cell_positions e.field.field e.caught_bomb_positions
        (scan_exploded_cell_positions e.field.field e.caught_bomb_positions
          (ExplosionPower.new e.filled_row_count e.current_chain)),
      scan_exploded_cell_positions e.field.field e.caught_bomb_positions
        (ExplosionPower.new e.filled_row_count e.current_chain),
      animation_frame⟩, ?_, rfl, rfl, rfl⟩
    simp [Explosion.wait_next, hw, if_neg hne]

/-- Witness for C3 (amended): a cascade state with exhausted frames and no
caught bombs finishes with its chain counter incremented once. -/
theorem C3_chain_counter_per_cascade_witness :
    Explosion.wait_next
        ⟨⟨Field.empty, ex_queue⟩, ChainCounter.new, 1, ∅, ∅, ⟨20, 20⟩⟩ =
      AnimationResult.Finished
        (⟨Field.empty.clear_positions ∅, ex_queue⟩, ChainCounter.new.next) :=
  (C3_chain_counter_per_cascade
    ⟨⟨Field.empty, ex_queue⟩, ChainCounter.new, 1, ∅, ∅, ⟨20, 20⟩⟩ rfl).1 rfl

/-! ### Position and field lemmas for the gravity resolver -/

theorem Pos.ext_xy {p q : Pos} (hx : p.x = q.x) (hy : p.y = q.y) : p = q := by
  cases p
  cases q
  simp only [Pos.mk.injEq]
  exact ⟨hx, hy⟩

theorem Pos.mv_mv (p : Pos) (a b c d : Int) :
    (p.mv a b).mv c d = p.mv (a + c) (b + d) :=
  Pos.ext_xy (add_assoc p.x a c) (add_assoc p.y b d)

theorem Pos.mv_zero (p : Pos) : p.mv 0 0 = p :=
  Pos.ext_xy (add_zero p.x) (add_zero p.y)

theorem Pos.down_up (p : Pos) : (p.mv 0 1).mv 0 (-1) = p := by
  rw [Pos.mv_mv]
  norm_num
  exact Pos.mv_zero p

theorem Pos.up_down (p : Pos) : (p.mv 0 (-1)).mv 0 1 = p := by
  rw [Pos.mv_mv]
  norm_num
  exact Pos.mv_zero p

theorem Pos.up_eq_iff {r p : Pos} : r.mv 0 (-1) = p ↔ r = p.mv 0 1 := by
  constructor
  · intro h
    rw [← h, Pos.up_down]
  · intro h
    rw [h, Pos.down_up]

theorem Pos.mv_x (p : Pos) (a b : Int) : (p.mv a b).x = p.x + a := rfl

theorem Pos.mv_y (p : Pos) (a b : Int) : (p.mv a b).y = p.y + b := rfl

theorem mem_all_positions {p : Pos} : p ∈ all_positions ↔ p.in_field := by
  simp only [all_positions, List.mem_flatMap, List.mem_map, List.mem_finRange,
    true_and]
  constructor
  · rintro ⟨y, x, rfl⟩
    have hx : x.val < 10 := x.isLt
    have hy : y.val < 20 := y.isLt
    refine ⟨Int.natCast_nonneg _, ?_, Int.natCast_nonneg _, ?_⟩
    · show ((x.val : Int)) < 10
      omega
    · show ((y.val : Int)) < 20
      omega
  · rintro ⟨h1, h2, h3, h4⟩
    refine ⟨⟨p.y.toNat, by omega⟩, ⟨p.x.toNat, by omega⟩, ?_⟩
    apply Pos.ext_xy <;> simp <;> omega

theorem non_empty_at_iff {f : Field} {p : Pos} :
    f.non_empty_at p = true ↔ ∃ c, f.get p = some c ∧ c.is_empty = false := by
  unfold Field.non_empty_at
  cases hg : f.get p with
  | none => simp
  | some c => cases c <;> simp [Cell.is_empty]

theorem in_field_of_non_empty_at {f : Field} {p : Pos}
    (h : f.non_empty_at p = true) : p.in_field := by
  obtain ⟨c, hc, _⟩ := non_empty_at_iff.mp h
  exact Field.in_field_of_get_eq_some hc

theorem get_eq_some_empty_of_not_non_empty {f : Field} {p : Pos}
    (hin : p.in_field) (h : f.non_empty_at p = false) :
    f.get p = some Cell.Empty := by
  have hg := Field.get_eq_some_of_in_field (f := f) hin
  set c := f.cells ⟨p.y.toNat, by omega⟩ ⟨p.x.toNat, by omega⟩ with hc
  unfold Field.non_empty_at at h
  rw [hg] at h ⊢
  simp at h
  rw [(Cell.is_empty_eq_true_iff c).mp h]

theorem Field.get_set_same {f : Field} {p : Pos} (c : Cell) (hin : p.in_field) :
    (f.set p c).get p = some c := by
  unfold Field.set Field.get
  rw [dif_pos hin, dif_pos hin]
  simp

theorem Field.get_set_other {f : Field} {p q : Pos} (c : Cell) (hne : q ≠ p) :
    (f.set p c).get q = f.get q := by
  by_cases hp : p.in_field
  · by_cases hq : q.in_field
    · unfold Field.set Field.get
      rw [dif_pos hp, dif_pos hq, dif_pos hq]
      have hidx : ¬((⟨q.y.toNat, by omega⟩ : Fin HEIGHT) = (⟨p.y.toNat, by omega⟩ : Fin HEIGHT) ∧
          (⟨q.x.toNat, by omega⟩ : Fin WIDTH) = (⟨p.x.toNat, by omega⟩ : Fin WIDTH)) := by
        rintro ⟨h1, h2⟩
        apply hne
        apply Pos.ext_xy
        · have h2' : q.x.toNat = p.x.toNat := congrArg Fin.val h2
          omega
        · have h1' : q.y.toNat = p.y.toNat := congrArg Fin.val h1
          omega
      simp only [if_neg hidx]
    · unfold Field.set Field.get
      rw [dif_pos hp, dif_neg hq, dif_neg hq]
  · unfold Field.set
    rw [dif_neg hp]

/-! ### The support flood fill reaches its least fixed point -/

theorem mem_neighbors_iff {p q : Pos} :
    p ∈ neighbors q ↔
      ((p.x = q.x + 1 ∧ p.y = q.y) ∨ (p.x = q.x - 1 ∧ p.y = q.y) ∨
        (p.x = q.x ∧ p.y = q.y + 1) ∨ (p.x = q.x ∧ p.y = q.y - 1)) := by
  simp only [neighbors, Pos.mv, List.mem_cons, List.not_mem_nil, or_false]
  constructor
  · rintro (rfl | rfl | rfl | rfl)
    · exact Or.inl ⟨rfl, add_zero _⟩
    · exact Or.inr (Or.inl ⟨show q.x + -1 = q.x - 1 by omega, add_zero _⟩)
    · exact Or.inr (Or.inr (Or.inl ⟨add_zero _, rfl⟩))
    · exact Or.inr (Or.inr (Or.inr ⟨add_zero _, show q.y + -1 = q.y - 1 by omega⟩))
  · rintro (⟨hx, hy⟩ | ⟨hx, hy⟩ | ⟨hx, hy⟩ | ⟨hx, hy⟩)
    · exact Or.inl (Pos.ext_xy (show p.x = q.x + 1 by omega) (show p.y = q.y + 0 by omega))
    · exact Or.inr (Or.inl
        (Pos.ext_xy (show p.x = q.x + -1 by omega) (show p.y = q.y + 0 by omega)))
    · exact Or.inr (Or.inr (Or.inl
        (Pos.ext_xy (show p.x = q.x + 0 by omega) (show p.y = q.y + 1 by omega))))
    · exact Or.inr (Or.inr (Or.inr
        (Pos.ext_xy (show p.x = q.x + 0 by omega) (show p.y = q.y + -1 by omega))))

theorem mem_neighbors_comm {p q : Pos} : p ∈ neighbors q ↔ q ∈ neighbors p := by
  rw [mem_neighbors_iff, mem_neighbors_iff]
  constructor <;> rintro (⟨hx, hy⟩ | ⟨hx, hy⟩ | ⟨hx, hy⟩ | ⟨hx, hy⟩)
  · exact Or.inr (Or.inl ⟨by omega, by omega⟩)
  · exact Or.inl ⟨by omega, by omega⟩
  · exact Or.inr (Or.inr (Or.inr ⟨by omega, by omega⟩))
  · exact Or.inr (Or.inr (Or.inl ⟨by omega, by omega⟩))
  · exact Or.inr (Or.inl ⟨by omega, by omega⟩)
  · exact Or.inl ⟨by omega, by omega⟩
  · exact Or.inr (Or.inr (Or.inr ⟨by omega, by omega⟩))
  · exact Or.inr (Or.inr (Or.inl ⟨by omega, by omega⟩))

theorem subset_expand (f : Field) (s : Finset Pos) : s ⊆ expand_connection f s :=
  Finset.subset_union_left

theorem mem_expand {f : Field} {s : Finset Pos} {p : Pos} :
    p ∈ expand_connection f s ↔
      p ∈ s ∨ (p.in_field ∧ f.non_empty_at p = true ∧ ∃ q ∈ neighbors p, q ∈ s) := by
  simp only [expand_connection, Finset.mem_union, List.mem_toFinset, List.mem_filter,
    Bool.and_eq_true, List.any_eq_true, decide_eq_true_eq, mem_all_positions]

theorem all_positions_nodup : all_positions.Nodup := by decide

theorem all_positions_length : all_positions.length = 200 := by decide

theorem ground_seeds_subset_all (f : Field) :
    ground_seeds f ⊆ all_positions.toFinset := by
  intro p hp
  simp only [ground_seeds, List.mem_toFinset, List.mem_filter, List.mem_map,
    List.mem_finRange, true_and] at hp
  obtain ⟨⟨x, rfl⟩, hne⟩ := hp
  rw [List.mem_toFinset]
  exact mem_all_positions.mpr (in_field_of_non_empty_at hne)

theorem iterate_expand_subset_all (f : Field) (s0 : Finset Pos)
    (h0 : s0 ⊆ all_positions.toFinset) :
    ∀ k, (expand_connection f)^[k] s0 ⊆ all_positions.toFinset := by
  intro k
  induction k with
  | zero => exact h0
  | succ n ih =>
    rw [Function.iterate_succ_apply']
    intro p hp
    rcases Finset.mem_union.mp hp with hmem | hmem
    · exact ih hmem
    · rw [List.mem_toFinset] at hmem ⊢
      exact (List.mem_filter.mp hmem).1

theorem iterate_expand_subset_of_le (f : Field) (s0 : Finset Pos) {j k : Nat}
    (h : j ≤ k) :
    (expand_connection f)^[j] s0 ⊆ (expand_connection f)^[k] s0 := by
  induction h with
  | refl => exact Finset.Subset.refl _
  | step h ih =>
    refine ih.trans ?_
    rw [Function.iterate_succ_apply']
    exact subset_expand f _

theorem iterate_stab_or_card (g : Finset Pos → Finset Pos)
    (hsub : ∀ s, s ⊆ g s) (s0 : Finset Pos) :
    ∀ k : Nat, (∃ j, j < k ∧ g^[j + 1] s0 = g^[j] s0) ∨ k ≤ (g^[k] s0).card := by
  intro k
  induction k with
  | zero => exact Or.inr (Nat.zero_le _)
  | succ n ih =>
    rcases ih with ⟨j, hj, hstab⟩ | hcard
    · exact Or.inl ⟨j, by omega, hstab⟩
    · by_cases hstab : g^[n + 1] s0 = g^[n] s0
      · exact Or.inl ⟨n, by omega, hstab⟩
      · right
        have hss : g^[n] s0 ⊂ g^[n + 1] s0 := by
          rw [Function.iterate_succ_apply']
          refine Finset.ssubset_iff_subset_ne.mpr ⟨hsub _, fun h => hstab ?_⟩
          rw [Function.iterate_succ_apply']
          exact h.symm
        have := Finset.card_lt_card hss
        omega

theorem iterate_stab_persists (g : Finset Pos → Finset Pos) (s0 : Finset Pos)
    {j : Nat} (hstab : g^[j + 1] s0 = g^[j] s0) :
    ∀ m, j ≤ m → g^[m] s0 = g^[j] s0 := by
  intro m hm
  induction hm with
  | refl => rfl
  | step h ih =>
    rw [Function.iterate_succ_apply', ih, ← Function.iterate_succ_apply' g j s0]
    exact hstab

theorem scan_connection_fixpoint (f : Field) :
    expand_connection f (scan_connection_on_ground f) = scan_connection_on_ground f := by
  unfold scan_connection_on_ground
  rcases iterate_stab_or_card (expand_connection f) (subset_expand f)
      (ground_seeds f) 201 with ⟨j, hj, hstab⟩ | hcard
  · have h201 := iterate_stab_persists _ _ hstab 201 (by omega)
    have h202 := iterate_stab_persists _ _ hstab 202 (by omega)
    calc
      expand_connection f ((expand_connection f)^[201] (ground_seeds f)) =
          (expand_connection f)^[202] (ground_seeds f) :=
        (Function.iterate_succ_apply' _ _ _).symm
      _ = (expand_connection f)^[j] (ground_seeds f) := h202
      _ = (expand_connection f)^[201] (ground_seeds f) := h201.symm
  · exfalso
    have hsub := iterate_expand_subset_all f (ground_seeds f)
      (ground_seeds_subset_all f) 201
    have hcard2 := Finset.card_le_card hsub
    have hall : all_positions.toFinset.card = 200 := by
      rw [List.toFinset_card_of_nodup all_positions_nodup, all_positions_length]
    omega

theorem mem_ground_seeds {f : Field} {p : Pos} :
    p ∈ ground_seeds f ↔ p.y = (HEIGHT : Int) - 1 ∧ f.non_empty_at p = true := by
  simp only [ground_seeds, List.mem_toFinset, List.mem_filter, List.mem_map,
    List.mem_finRange, true_and]
  constructor
  · rintro ⟨⟨x, rfl⟩, hne⟩
    exact ⟨rfl, hne⟩
  · rintro ⟨hy, hne⟩
    have hin := in_field_of_non_empty_at hne
    refine ⟨⟨⟨p.x.toNat, by omega⟩, ?_⟩, hne⟩
    apply Pos.ext_xy
    · show ((p.x.toNat : Int)) = p.x
      omega
    · show ((HEIGHT : Int) - 1) = p.y
      omega

theorem supp_of_mem_iterate (f : Field) :
    ∀ k p, p ∈ (expand_connection f)^[k] (ground_seeds f) → Supp f p := by
  intro k
  induction k with
  | zero =>
    intro p hp
    obtain ⟨hy, hne⟩ := mem_ground_seeds.mp hp
    exact Supp.base p hy hne
  | succ n ih =>
    intro p hp
    rw [Function.iterate_succ_apply'] at hp
    rcases mem_expand.mp hp with hmem | ⟨hin, hne, q, hq_nb, hq_mem⟩
    · exact ih p hmem
    · exact Supp.step p q (ih q hq_mem) (mem_neighbors_comm.mp hq_nb) hne

theorem mem_scan_of_supp {f : Field} {p : Pos} (h : Supp f p) :
    p ∈ scan_connection_on_ground f := by
  induction h with
  | base p hy hne =>
    have hseed : p ∈ ground_seeds f := mem_ground_seeds.mpr ⟨hy, hne⟩
    unfold scan_connection_on_ground
    exact iterate_expand_subset_of_le f _ (Nat.zero_le 201) hseed
  | step p q hq hadj hne ihq =>
    rw [← scan_connection_fixpoint f]
    apply mem_expand.mpr
    exact Or.inr ⟨in_field_of_non_empty_at hne, hne, q, mem_neighbors_comm.mpr hadj, ihq⟩

/-- The flood fill computes exactly the ground-connectedness predicate. -/
theorem mem_scan_connection_on_ground {f : Field} {p : Pos} :
    p ∈ scan_connection_on_ground f ↔ Supp f p :=
  ⟨fun h => supp_of_mem_iterate f 201 p h, mem_scan_of_supp⟩

/-! ### Floating-cell lemmas -/

theorem mem_scan_floating {f : Field} {p : Pos} :
    p ∈ scan_floating_cell_positions f ↔
      f.non_empty_at p = true ∧ ¬Supp f p := by
  simp only [scan_floating_cell_positions, List.mem_toFinset, List.mem_filter,
    float_at, Bool.and_eq_true, Bool.not_eq_true', decide_eq_false_iff_not,
    mem_all_positions, mem_scan_connection_on_ground]
  constructor
  · rintro ⟨_, hne, hnsupp⟩
    exact ⟨hne, hnsupp⟩
  · rintro ⟨hne, hnsupp⟩
    exact ⟨in_field_of_non_empty_at hne, hne, hnsupp⟩

theorem mem_floating_desc {f : Field} {p : Pos} :
    p ∈ floating_positions_desc f ↔ p ∈ scan_floating_cell_positions f := by
  simp [floating_positions_desc, scan_floating_cell_positions]

theorem floating_desc_nodup (f : Field) : (floating_positions_desc f).Nodup := by
  unfold floating_positions_desc
  rw [List.nodup_reverse]
  exact all_positions_nodup.filter _

theorem all_positions_pairwise_y :
    all_positions.Pairwise (fun a b => a.y ≤ b.y) := by decide

theorem floating_desc_pairwise (f : Field) :
    (floating_positions_desc f).Pairwise (fun a b => b.y ≤ a.y) := by
  unfold floating_positions_desc
  rw [List.pairwise_reverse]
  exact all_positions_pairwise_y.filter _

theorem float_y_le {f : Field} {p : Pos}
    (h : p ∈ scan_floating_cell_positions f) : p.y ≤ 18 ∧ p.in_field := by
  obtain ⟨hne, hnsupp⟩ := mem_scan_floating.mp h
  have hin := in_field_of_non_empty_at hne
  refine ⟨?_, hin⟩
  by_contra hgt
  obtain ⟨h1, h2, h3, h4⟩ := hin
  have hcast : ((HEIGHT : Int)) = 20 := rfl
  exact hnsupp (Supp.base p (by omega) hne)

theorem float_below_closure {f : Field} {p : Pos}
    (h : p ∈ scan_floating_cell_positions f)
    (hne : f.non_empty_at (p.mv 0 1) = true) :
    (p.mv 0 1) ∈ scan_floating_cell_positions f := by
  obtain ⟨hpne, hnsupp⟩ := mem_scan_floating.mp h
  refine mem_scan_floating.mpr ⟨hne, fun hs => hnsupp ?_⟩
  refine Supp.step p (p.mv 0 1) hs ?_ hpne
  exact mem_neighbors_iff.mpr (Or.inr (Or.inr (Or.inr
    ⟨(show p.x = p.x + 0 by omega), (show p.y = p.y + 1 - 1 by omega)⟩)))

/-! ### The single gravity move step -/

theorem move_cell_get_src {g : Field} {p : Pos} (hp_in : p.in_field) :
    (move_cell g p).get p = some Cell.Empty :=
  Field.get_set_same Cell.Empty hp_in

theorem dest_ne_self (p : Pos) : p.mv 0 1 ≠ p := by
  intro h
  have h2 : p.y + 1 = p.y := congrArg Pos.y h
  omega

theorem move_cell_get_dest {g : Field} {p : Pos} {c : Cell}
    (hgp : g.get p = some c) (hdest_in : (p.mv 0 1).in_field) :
    (move_cell g p).get (p.mv 0 1) = some c := by
  unfold move_cell
  rw [Field.get_set_other Cell.Empty (dest_ne_self p),
    Field.get_set_same _ hdest_in, hgp]
  rfl

theorem move_cell_get_other {g : Field} {p r : Pos} (h1 : r ≠ p)
    (h2 : r ≠ p.mv 0 1) : (move_cell g p).get r = g.get r := by
  unfold move_cell
  rw [Field.get_set_other _ h1, Field.get_set_other _ h2]

theorem multiset_move_cell {g : Field} {p : Pos} {c d : Cell}
    (hp_in : p.in_field) (hdest_in : (p.mv 0 1).in_field)
    (hgp : g.get p = some c) (hgd : g.get (p.mv 0 1) = some d)
    (hd : d.is_empty = true) :
    non_empty_cell_multiset (move_cell g p) = non_empty_cell_multiset g := by
  unfold non_empty_cell_multiset
  have hpmem : p ∈ (all_positions : Multiset Pos) := by
    exact_mod_cast mem_all_positions.mpr hp_in
  have hdmem : p.mv 0 1 ∈ (all_positions : Multiset Pos).erase p := by
    rw [Multiset.mem_erase_of_ne (dest_ne_self p)]
    exact_mod_cast mem_all_positions.mpr hdest_in
  have hnd : (all_positions : Multiset Pos).Nodup := by
    exact_mod_cast all_positions_nodup
  have hdecomp : (all_positions : Multiset Pos) =
      p ::ₘ (p.mv 0 1) ::ₘ ((all_positions : Multiset Pos).erase p).erase (p.mv 0 1) := by
    rw [Multiset.cons_erase hdmem, Multiset.cons_erase hpmem]
  have hother : ∀ r ∈ ((all_positions : Multiset Pos).erase p).erase (p.mv 0 1),
      r ≠ p ∧ r ≠ p.mv 0 1 := by
    intro r hr
    have hr1 : r ∈ (all_positions : Multiset Pos).erase p :=
      Multiset.mem_of_mem_erase hr
    constructor
    · intro h
      rw [h] at hr1
      exact hnd.not_mem_erase hr1
    · intro h
      rw [h] at hr
      exact (Multiset.Nodup.erase p hnd).not_mem_erase hr
  rw [hdecomp]
  simp only [Multiset.map_cons, Multiset.filter_cons,
    move_cell_get_src hp_in, move_cell_get_dest hgp hdest_in, hgp, hgd,
    Option.getD_some]
  have hmap : Multiset.map (fun q => ((move_cell g p).get q).getD Cell.Empty)
      (((all_positions : Multiset Pos).erase p).erase (p.mv 0 1)) =
      Multiset.map (fun q => (g.get q).getD Cell.Empty)
      (((all_positions : Multiset Pos).erase p).erase (p.mv 0 1)) := by
    apply Multiset.map_congr rfl
    intro r hr
    rw [move_cell_get_other (hother r hr).1 (hother r hr).2]
  rw [hmap]
  rw [if_neg (show ¬(Cell.Empty.is_empty = false) by simp [Cell.is_empty]),
    if_neg (show ¬(d.is_empty = false) by simp [hd])]
  simp

/-- Invariant of the drop loop: after processing the prefix `P` of the
descending-order floating list, the field reads as the original `f` with
every processed cell moved one row down, the checked fold has not failed, and
the multiset of non-empty cell values is preserved. -/
theorem move_fold_inv (f : Field) :
    ∀ (rest P : List Pos) (g : Field),
      floating_positions_desc f = P ++ rest →
      (∀ r : Pos, g.get r =
        (if r.mv 0 (-1) ∈ P then f.get (r.mv 0 (-1))
         else if r ∈ P then some Cell.Empty else f.get r)) →
      non_empty_cell_multiset g = non_empty_cell_multiset f →
      ((∀ r : Pos, (move_positions g rest).get r =
          (if r.mv 0 (-1) ∈ P ++ rest then f.get (r.mv 0 (-1))
           else if r ∈ P ++ rest then some Cell.Empty else f.get r)) ∧
        rest.foldl (fun of p => of.bind fun g2 => move_cell_checked g2 p) (some g) =
          some (move_positions g rest) ∧
        non_empty_cell_multiset (move_positions g rest) =
          non_empty_cell_multiset f) := by
  intro rest
  induction rest with
  | nil =>
    intro P g hsplit hinv hmult
    refine ⟨?_, rfl, hmult⟩
    intro r
    simpa using hinv r
  | cons p rest ih =>
    intro P g hsplit hinv hmult
    have hpL : p ∈ floating_positions_desc f := by
      rw [hsplit]
      simp
    have hpFl : p ∈ scan_floating_cell_positions f := mem_floating_desc.mp hpL
    obtain ⟨hpy18, hp_in⟩ := float_y_le hpFl
    obtain ⟨hx1, hx2, hy1, hy2⟩ := id hp_in
    have hdest_in : (p.mv 0 1).in_field := by
      refine ⟨?_, ?_, ?_, ?_⟩ <;> simp only [Pos.mv, HEIGHT, WIDTH] at hx2 hy2 ⊢ <;>
        omega
    have hnodupL := floating_desc_nodup f
    rw [hsplit] at hnodupL
    have hdisj := List.disjoint_of_nodup_append hnodupL
    have hpP : p ∉ P := fun hmem => hdisj hmem (List.mem_cons_self p rest)
    have hsortL := floating_desc_pairwise f
    rw [hsplit, List.pairwise_append] at hsortL
    have hPy : ∀ a ∈ P, p.y ≤ a.y := fun a ha =>
      hsortL.2.2 a ha p (List.mem_cons_self p rest)
    have hresty : ∀ b ∈ rest, b.y ≤ p.y := fun b hb =>
      (List.pairwise_cons.mp hsortL.2.1).1 b hb
    have habove_p : p.mv 0 (-1) ∉ P := by
      intro hmem
      have h2 := hPy _ hmem
      have h3 : p.y ≤ p.y + -1 := h2
      omega
    have hg_p : g.get p = f.get p := by
      rw [hinv p, if_neg habove_p, if_neg hpP]
    obtain ⟨c, hfc, hc_ne⟩ := non_empty_at_iff.mp (mem_scan_floating.mp hpFl).1
    have hg_p2 : g.get p = some c := by rw [hg_p]; exact hfc
    have hg_dest : ∃ d, g.get (p.mv 0 1) = some d ∧ d.is_empty = true := by
      by_cases hdf : f.non_empty_at (p.mv 0 1) = true
      · have hdfl := float_below_closure hpFl hdf
        have hdL := mem_floating_desc.mpr hdfl
        have hdP : p.mv 0 1 ∈ P := by
          rw [hsplit] at hdL
          rcases List.mem_append.mp hdL with h | h
          · exact h
          · exfalso
            rcases List.mem_cons.mp h with heq | hmem
            · have h2 : p.y + 1 = p.y := congrArg Pos.y heq
              omega
            · have h2 := hresty _ hmem
              have h3 : p.y + 1 ≤ p.y := h2
              omega
        refine ⟨Cell.Empty, ?_, rfl⟩
        rw [hinv (p.mv 0 1), Pos.down_up, if_neg hpP, if_pos hdP]
      · have hdP : p.mv 0 1 ∉ P := by
          intro hmem
          have hdL : p.mv 0 1 ∈ floating_positions_desc f := by
            rw [hsplit]
            exact List.mem_append.mpr (Or.inl hmem)
          exact hdf (mem_scan_floating.mp (mem_floating_desc.mp hdL)).1
        refine ⟨Cell.Empty, ?_, rfl⟩
        rw [hinv (p.mv 0 1), Pos.down_up, if_neg hpP, if_neg hdP]
        exact get_eq_some_empty_of_not_non_empty hdest_in
          (Bool.eq_false_iff.mpr hdf)
    obtain ⟨d, hgd, hd_emp⟩ := hg_dest
    have hchecked : move_cell_checked g p = some (move_cell g p) := by
      simp [move_cell_checked, hg_p2, hgd, hc_ne, hd_emp]
    have hinv2 : ∀ r : Pos, (move_cell g p).get r =
        (if r.mv 0 (-1) ∈ P ++ [p] then f.get (r.mv 0 (-1))
         else if r ∈ P ++ [p] then some Cell.Empty else f.get r) := by
      intro r
      by_cases hr1 : r = p.mv 0 1
      · subst hr1
        rw [move_cell_get_dest hg_p2 hdest_in, Pos.down_up,
          if_pos (List.mem_append.mpr (Or.inr (List.mem_singleton_self p)))]
        exact hfc.symm
      · by_cases hr2 : r = p
        · subst hr2
          rw [move_cell_get_src hp_in]
          have hnot : r.mv 0 (-1) ∉ P ++ [r] := by
            intro hmem
            rcases List.mem_append.mp hmem with h | h
            · exact habove_p h
            · have heq := List.mem_singleton.mp h
              have h2 : r.y + -1 = r.y := congrArg Pos.y heq
              omega
          rw [if_neg hnot,
            if_pos (List.mem_append.mpr (Or.inr (List.mem_singleton_self r)))]
        · rw [move_cell_get_other hr2 hr1, hinv r]
          have h1 : (r.mv 0 (-1) ∈ P ++ [p]) ↔ (r.mv 0 (-1) ∈ P) := by
            simp only [List.mem_append, List.mem_singleton]
            constructor
            · rintro (h | h)
              · exact h
              · exact absurd (Pos.up_eq_iff.mp h) hr1
            · exact Or.inl
          have h2 : (r ∈ P ++ [p]) ↔ (r ∈ P) := by
            simp only [List.mem_append, List.mem_singleton]
            constructor
            · rintro (h | h)
              · exact h
              · exact absurd h hr2
            · exact Or.inl
          rw [if_congr h1 rfl rfl, if_congr h2 rfl rfl]
    have hmult2 : non_empty_cell_multiset (move_cell g p) =
        non_empty_cell_multiset f := by
      rw [multiset_move_cell hp_in hdest_in hg_p2 hgd hd_emp, hmult]
    have hsplit2 : floating_positions_desc f = (P ++ [p]) ++ rest := by
      rw [hsplit, List.append_assoc, List.singleton_append]
    obtain ⟨hA, hB, hC⟩ := ih (P ++ [p]) (move_cell g p) hsplit2 hinv2 hmult2
    have hmv : move_positions g (p :: rest) = move_positions (move_cell g p) rest :=
      rfl
    have hle : (P ++ [p]) ++ rest = P ++ p :: rest := by simp
    refine ⟨?_, ?_, ?_⟩
    · intro r
      rw [hmv, hA r, hle]
    · show (p :: rest).foldl _ (some g) = some (move_positions g (p :: rest))
      rw [List.foldl_cons, hmv]
      rw [show ((some g).bind fun g2 => move_cell_checked g2 p) =
        move_cell_checked g p from rfl, hchecked]
      exact hB
    · rw [hmv]
      exact hC

/-- Pointwise characterization of one gravity move, success of the checked
move, and preservation of the non-empty cell multiset. -/
theorem move_floating_spec (f : Field) :
    (∀ r : Pos, (move_floating f).get r =
        (if r.mv 0 (-1) ∈ scan_floating_cell_positions f then f.get (r.mv 0 (-1))
         else if r ∈ scan_floating_cell_positions f then some Cell.Empty
         else f.get r)) ∧
      move_floating_checked f = some (move_floating f) ∧
      non_empty_cell_multiset (move_floating f) = non_empty_cell_multiset f := by
  obtain ⟨hA, hB, hC⟩ := move_fold_inv f (floating_positions_desc f) [] f rfl
    (fun r => by simp) rfl
  refine ⟨?_, hB, hC⟩
  intro r
  have hr := hA r
  simp only [List.nil_append] at hr
  rw [show move_floating f = move_positions f (floating_positions_desc f) from rfl,
    hr]
  by_cases h1 : r.mv 0 (-1) ∈ scan_floating_cell_positions f
  · rw [if_pos (mem_floating_desc.mpr h1), if_pos h1]
  · rw [if_neg (fun hm => h1 (mem_floating_desc.mp hm)), if_neg h1]
    by_cases h2 : r ∈ scan_floating_cell_positions f
    · rw [if_pos (mem_floating_desc.mpr h2), if_pos h2]
    · rw [if_neg (fun hm => h2 (mem_floating_desc.mp hm)), if_neg h2]

theorem supp_non_empty {f : Field} {p : Pos} (h : Supp f p) :
    f.non_empty_at p = true := by
  cases h with
  | base _ _ hne => exact hne
  | step _ _ _ _ hne => exact hne

theorem supp_not_floating {f : Field} {p : Pos} (h : Supp f p) :
    p ∉ scan_floating_cell_positions f :=
  fun hf => (mem_scan_floating.mp hf).2 h

theorem above_supp_not_floating {f : Field} {p : Pos} (h : Supp f p) :
    p.mv 0 (-1) ∉ scan_floating_cell_positions f := by
  intro hf
  have hne : f.non_empty_at ((p.mv 0 (-1)).mv 0 1) = true := by
    rw [Pos.up_down]
    exact supp_non_empty h
  have hfloat := float_below_closure hf hne
  rw [Pos.up_down] at hfloat
  exact (mem_scan_floating.mp hfloat).2 h

theorem move_floating_get_supp {f : Field} {p : Pos} (h : Supp f p) :
    (move_floating f).get p = f.get p := by
  rw [(move_floating_spec f).1 p, if_neg (above_supp_not_floating h),
    if_neg (supp_not_floating h)]

theorem supp_move_floating {f : Field} {q : Pos} (h : Supp f q) :
    Supp (move_floating f) q := by
  induction h with
  | base p hy hne =>
    refine Supp.base p hy ?_
    unfold Field.non_empty_at
    rw [move_floating_get_supp (Supp.base p hy hne)]
    exact hne
  | step p q hq hadj hne ihq =>
    refine Supp.step p q ihq hadj ?_
    unfold Field.non_empty_at
    rw [move_floating_get_supp (Supp.step p q hq hadj hne)]
    exact hne

theorem floating_after_move {f : Field} {p : Pos}
    (h : p ∈ scan_floating_cell_positions (move_floating f)) :
    p.mv 0 (-1) ∈ scan_floating_cell_positions f := by
  obtain ⟨hne, hnsupp⟩ := mem_scan_floating.mp h
  by_cases h1 : p.mv 0 (-1) ∈ scan_floating_cell_positions f
  · exact h1
  · exfalso
    by_cases h2 : p ∈ scan_floating_cell_positions f
    · have hget := (move_floating_spec f).1 p
      rw [if_neg h1, if_pos h2] at hget
      unfold Field.non_empty_at at hne
      rw [hget] at hne
      simp [Cell.is_empty] at hne
    · have hget := (move_floating_spec f).1 p
      rw [if_neg h1, if_neg h2] at hget
      have hne_f : f.non_empty_at p = true := by
        unfold Field.non_empty_at at hne ⊢
        rw [← hget]
        exact hne
      have hsupp_f : Supp f p := by
        by_contra hns
        exact h2 (mem_scan_floating.mpr ⟨hne_f, hns⟩)
      exact hnsupp (supp_move_floating hsupp_f)

theorem drop_step_floating_y (f : Field) :
    ∀ k p, p ∈ scan_floating_cell_positions (drop_cell_step^[k] f) →
      (k : Int) ≤ p.y := by
  intro k
  induction k with
  | zero =>
    intro p hp
    have h := (float_y_le hp).2
    simpa using h.2.2.1
  | succ n ih =>
    intro p hp
    rw [Function.iterate_succ_apply'] at hp
    have hstep : drop_cell_step (drop_cell_step^[n] f) =
        if scan_floating_cell_positions (drop_cell_step^[n] f) = ∅ then
          drop_cell_step^[n] f
        else move_floating (drop_cell_step^[n] f) := rfl
    by_cases hfl : scan_floating_cell_positions (drop_cell_step^[n] f) = ∅
    · rw [hstep, if_pos hfl, hfl] at hp
      exact absurd hp (Finset.not_mem_empty p)
    · rw [hstep, if_neg hfl] at hp
      have h2 := floating_after_move hp
      have h3 := ih _ h2
      have h4 : (n : Int) ≤ p.y + -1 := h3
      push_cast
      omega

/-- C7: on every field, iterating the gravity step `HEIGHT` (= 20) times
reaches a field with zero floating cells: each step pushes the minimum row of
the floating set down by at least one, floating cells never sit on the bottom
row, and once the floating set is empty the step is the identity. -/
theorem C7_gravity_terminates (f : Field) :
    scan_floating_cell_positions (drop_cell_step^[HEIGHT] f) = ∅ := by
  rw [Finset.eq_empty_iff_forall_not_mem]
  intro p hp
  have h1 := drop_step_floating_y f HEIGHT p hp
  have h2 := (float_y_le hp).1
  have h3 : ((HEIGHT : Nat) : Int) = 20 := rfl
  omega

/-- C10: a single gravity move processes the floating cells bottom-row-first
and (1) never fails its unwraps or debug assertions, with every destination
in bounds and empty at the moment it is written (the checked variant of the
loop succeeds), (2) moves exactly the floating cells one row down — a cell
reads as its old above-neighbour when that neighbour floated, as Empty when
the cell itself floated with no floating cell above it, and is untouched
otherwise — and (3) preserves the multiset of non-empty cell values: no
non-empty cell is destroyed or duplicated. -/
theorem C10_gravity_step_safe (f : Field) :
    move_floating_checked f = some (move_floating f) ∧
      (∀ r : Pos, (move_floating f).get r =
        (if r.mv 0 (-1) ∈ scan_floating_cell_positions f then f.get (r.mv 0 (-1))
         else if r ∈ scan_floating_cell_positions f then some Cell.Empty
         else f.get r)) ∧
      non_empty_cell_multiset (move_floating f) = non_empty_cell_multiset f :=
  ⟨(move_floating_spec f).2.1, (move_floating_spec f).1, (move_floating_spec f).2.2⟩

end Rustetris
